import Mathlib

/-!
# Mark/alloc bitmap engine of XMM (`bit_map.go`)

A shallow embedding of `bit_map.go`.

* Pointers (`*gcBits`, `*uint32`) are byte addresses, natural numbers;
  `uintptr` arithmetic is taken modulo `2^64` and `uint32` arithmetic modulo `2^32`.
* Memory is a map from byte addresses to bytes.  A 32-bit load or store touches the four
  bytes starting at the address, least significant byte first (little endian, the byte order
  `show64` itself assumes when it assembles a 64-bit block from eight bytes).
* Functions that write memory take the memory and return the new one.
* The collaborators that live outside `bit_map.go` (the raw allocator, `spanOf`, `objIndex`,
  `setMarkBitsForIndex`, the `logg` flag) are parameters.
-/

namespace xmm

/-! ## Machine words and memory -/

/-- Number of values of a `uintptr` (64-bit platform). -/
def uintptrSize : Nat := 2 ^ 64

/-- Number of values of a `uint32`. -/
def uint32Size : Nat := 2 ^ 32

/-- The `uint32` with every bit set. -/
def allOnes32 : Nat := 0xFFFFFFFF

/-- Go's unary `^x` on a `uint32`: exclusive or with the all-ones word. -/
def not32 (x : Nat) : Nat := x ^^^ allOnes32

/-- Go's `int(x)` for a `uintptr` `x` on a 64-bit platform (two's complement reinterpretation). -/
def toInt (x : Nat) : Int := if x < 2 ^ 63 then (x : Int) else (x : Int) - 2 ^ 64

/-- Byte-addressed memory; only the low eight bits of an entry are meaningful. -/
abbrev Mem := Nat → Nat

/-- The byte stored at address `a`. -/
def byteAt (m : Mem) (a : Nat) : Nat := m a % 256

/-- A 32-bit load (`*p` for `p : *uint32`, `atomic.LoadUint32`): four bytes, little endian. -/
def LoadUint32 (m : Mem) (p : Nat) : Nat :=
  byteAt m p + 256 * byteAt m (p + 1) + 65536 * byteAt m (p + 2) + 16777216 * byteAt m (p + 3)

/-- A 32-bit store (`*p = v`, `atomic.StoreUint32`): four bytes, little endian. -/
def StoreUint32 (m : Mem) (p v : Nat) : Mem := fun a =>
  if a = p then v % 256
  else if a = p + 1 then v / 256 % 256
  else if a = p + 2 then v / 65536 % 256
  else if a = p + 3 then v / 16777216 % 256
  else m a

/-- The primitive `atomic.CompareAndSwapUint32(p, old, new)`: the new memory and whether the swap
happened. -/
def CompareAndSwapUint32 (m : Mem) (p old new : Nat) : Mem × Bool :=
  if LoadUint32 m p = old then (StoreUint32 m p new, true) else (m, false)

/-! ## `gcBits` addressing -/

/-- Source `addb`: `uintptr(p) + n`. -/
def addb (p n : Nat) : Nat := (p + n) % uintptrSize

/-- Source `(*gcBits).uint32p`: `addb(b, n*4)`. -/
def uint32p (b n : Nat) : Nat := addb b (n * 4 % uintptrSize)

/-- Source `(*gcBits).bitp`: `b.uint32p(n / 32), 1 << (n % 32)` (the mask is a `uint32`). -/
def bitp (b n : Nat) : Nat × Nat := (uint32p b (n / 32), (1 <<< (n % 32)) % uint32Size)

/-! ## `markBits` cursors -/

/-- Source `type markBits struct { uint32p *uint32; mask uint32; index uintptr }`. -/
structure markBits where
  uint32p : Nat
  mask : Nat
  index : Nat
  deriving DecidableEq, Repr

/-- The zero value `markBits{}`. -/
def markBits.zero : markBits := ⟨0, 0, 0⟩

/-- Source `markBits.isMarked`: `*m.uint32p & m.mask != 0`. -/
def markBits.isMarked (c : markBits) (m : Mem) : Bool :=
  decide (LoadUint32 m c.uint32p &&& c.mask ≠ 0)

/-- Source `markBits.setMarked`, run without interference from other threads.  Each round of the
`for` loop loads the word and attempts the compare-and-swap to `val ^ m.mask`; `fuel` bounds
the number of rounds, `none` means the bound was reached. -/
def markBits.setMarked (c : markBits) : Nat → Mem → Option Mem
  | 0, _ => none
  | fuel + 1, m =>
    let val := LoadUint32 m c.uint32p
    match CompareAndSwapUint32 m c.uint32p val (val ^^^ c.mask) with
    | (m', true) => some m'
    | (m', false) => markBits.setMarked c fuel m'

/-- Source `markBits.setMarkedNonAtomic`: `*m.uint32p |= m.mask`. -/
def markBits.setMarkedNonAtomic (c : markBits) (m : Mem) : Mem :=
  StoreUint32 m c.uint32p (LoadUint32 m c.uint32p ||| c.mask)

/-- Source `markBits.clearMarked`, run without interference from other threads: the same retry
loop as `setMarked`, swapping to `val & (^m.mask)`. -/
def markBits.clearMarked (c : markBits) : Nat → Mem → Option Mem
  | 0, _ => none
  | fuel + 1, m =>
    let val := LoadUint32 m c.uint32p
    match CompareAndSwapUint32 m c.uint32p val (val &&& not32 c.mask) with
    | (m', true) => some m'
    | (m', false) => markBits.clearMarked c fuel m'

/-- Source `(*markBits).advance`: when the mask is `1<<7` the pointer moves by one byte and the
mask restarts at 1, otherwise the mask shifts left (as a `uint32`); the index is incremented. -/
def markBits.advance (c : markBits) : markBits :=
  if c.mask = 1 <<< 7 then
    { uint32p := (c.uint32p + 1) % uintptrSize, mask := 1, index := (c.index + 1) % uintptrSize }
  else
    { uint32p := c.uint32p, mask := (c.mask <<< 1) % uint32Size,
      index := (c.index + 1) % uintptrSize }

/-- The cursor for bit 0 of the bitmap at `b`: word reference `b`, mask 1, index 0. -/
def markBits.first (b : Nat) : markBits := ⟨b, 1, 0⟩

/-! ## Bulk inversion and construction -/

/-- One round of the inversion loops: `atomic.StoreUint32(uint32p, ^*uint32p)` for word `i`. -/
def invertWord (b : Nat) (m : Mem) (i : Nat) : Mem :=
  StoreUint32 m (uint32p b i) (not32 (LoadUint32 m (uint32p b i)))

/-- The loop `for i := 0; i < int(num); i++ { invert word i }`. -/
def invertLoop (b num : Nat) (m : Mem) : Mem :=
  (List.range (toInt num).toNat).foldl (invertWord b) m

/-- Source `(*gcBits).invert`. -/
def invert (b len : Nat) (m : Mem) : Mem :=
  let num := (len / 32 + 1) % uintptrSize
  let num := if len % 32 = 0 then (num + uintptrSize - 1) % uintptrSize else num
  invertLoop b num m

/-- Go's `error` results: `none` is `nil`. -/
abbrev GoError := Option String

/-- The word count `uint32Needed` computed by `newMarkBits`. -/
def uint32Needed (nelems : Nat) : Nat :=
  let blocksNeeded := (nelems + 63) % uintptrSize / 64
  blocksNeeded * 2 % uintptrSize

/-- Source `newMarkBits`.  The raw allocator (`newXAllocator(size).alloc()`) is the parameter
`alloc`, from the requested byte size to the address of the block or an error, and `m` is the
memory as the allocator leaves it.  The result is the returned pointer, or the error, together
with the memory afterwards. -/
def newMarkBits (alloc : Nat → Except String Nat) (nelems : Nat) (zero : Bool) (m : Mem) :
    Except String Nat × Mem :=
  match alloc (4 * uint32Needed nelems % uintptrSize) with
  | .error err => (.error err, m)
  | .ok bits =>
    if zero then (.ok bits, m)
    else (.ok bits, invertLoop bits (uint32Needed nelems) m)

/-- Source `newAllocBits`. -/
def newAllocBits (alloc : Nat → Except String Nat) (nelems : Nat) (m : Mem) :
    Except String Nat × Mem :=
  newMarkBits alloc nelems false m

/-! ## Address resolution -/

/-- The heap collaborators used by `markBitsForAddr`, which live outside `bit_map.go`:
`h.spanOf(p)` (a lookup, the span's address or an error), `s.objIndex(p)` and
`s.setMarkBitsForIndex(objIndex)` (which may write memory). -/
structure xHeap where
  spanOf : Mem → Nat → Except String Nat
  objIndex : Mem → Nat → Nat → Nat
  setMarkBitsForIndex : Nat → Nat → Mem → Mem

/-- The mutable world of the address-resolution path: memory and the lines printed so far
(each `fmt.Println("markBitsForAddr", s, objIndex)` is recorded as its three arguments). -/
structure World where
  mem : Mem
  out : List (String × Nat × Nat)

/-- Source `markBitsForAddr`; `logg` is the package-level debug flag. -/
def markBitsForAddr (h : xHeap) (logg : Bool) (p : Nat) (w : World) : GoError × World :=
  match h.spanOf w.mem p with
  | .error err => (some err, w)
  | .ok s =>
    let objIndex := h.objIndex w.mem s p
    let mem := h.setMarkBitsForIndex s objIndex w.mem
    let out := if logg then w.out ++ [("markBitsForAddr", s, objIndex)] else w.out
    (none, { mem := mem, out := out })

/-- Source `markBitsForSpan`.  The named result `mbits` starts as the zero value and is never
assigned. -/
def markBitsForSpan (h : xHeap) (logg : Bool) (base : Nat) (w : World) :
    (markBits × GoError) × World :=
  let mbits := markBits.zero
  match markBitsForAddr h logg base w with
  | (some err, w') => ((markBits.zero, some err), w')
  | (none, w') =>
    if mbits.mask ≠ 1 then ((mbits, some "markBitsForSpan: unaligned start"), w')
    else ((mbits, none), w')

/-! ## Cursors by bit index, and concrete inputs -/

/-- The cursor for bit `n` of the bitmap at `b`: the word reference and the mask are the two
results of `b.bitp(n)`, the index is `n`. -/
def markBitsAt (b n : Nat) : markBits :=
  { uint32p := (bitp b n).1, mask := (bitp b n).2, index := n }

/-- The all-zero memory. -/
def zeroMem : Mem := fun _ => 0

/-- A memory that is zero except for the 32-bit word `v` stored at address `p`. -/
def wordMem (p v : Nat) : Mem := StoreUint32 zeroMem p v

/-- A heap with a single span at address 4096 that contains every address; marking slot `i`
sets bit `i` of the bitmap at the span's address. -/
def oneSpanHeap : xHeap where
  spanOf := fun _ _ => .ok 4096
  objIndex := fun _ _ _ => 0
  setMarkBitsForIndex := fun s i m => (markBitsAt s i).setMarkedNonAtomic m

/-- A heap that knows no span: every lookup fails with `"not found"`. -/
def emptyHeap : xHeap where
  spanOf := fun _ _ => .error "not found"
  objIndex := fun _ _ _ => 0
  setMarkBitsForIndex := fun s i m => (markBitsAt s i).setMarkedNonAtomic m

/-- The world with all-zero memory and nothing printed. -/
def zeroWorld : World := { mem := zeroMem, out := [] }

/-- An allocator that answers every request with a block at the address equal to the requested
size, so that the size requested can be read off the result. -/
def echoAlloc : Nat → Except String Nat := fun size => .ok size

/-- An allocator that answers every request with a block at address `p`. -/
def blockAlloc (p : Nat) : Nat → Except String Nat := fun _ => .ok p

/-- The allocator's postcondition: the `size` bytes at `p` lie inside the address space and are
all zero. -/
def ZeroedBlock (m : Mem) (p size : Nat) : Prop :=
  p + size ≤ uintptrSize ∧ ∀ k, k < size → byteAt m (p + k) = 0

instance (m : Mem) (p size : Nat) : Decidable (ZeroedBlock m p size) := by
  unfold ZeroedBlock
  infer_instance

/-! ## Sizing, diagnostics and masks -/

/-- The block count `blocksNeeded` computed by `newMarkBits`: `(nelems + 63) / 64` on `uintptr`. -/
def blocksNeeded (nelems : Nat) : Nat := (nelems + 63) % uintptrSize / 64

/-- The byte size that `newMarkBits` passes to `newXAllocator`: `4 * uint32Needed`. -/
def allocSize (nelems : Nat) : Nat := 4 * uint32Needed nelems % uintptrSize

/-- The number of the 32 bits of a `uint32` that are set. -/
def popCount32 (x : Nat) : Nat := (List.range 32).countP (fun k => x.testBit k)

/-- The binary digits of `v` over exactly `width` positions, most significant first: what
`fmt.Sprintf("%.32b", v)` gives for a `uint32` (`width = 32`) and `"%.64b"` for a `uint64`. -/
def fmtBinary (width v : Nat) : String :=
  String.mk ((List.range width).reverse.map (fun k => if v.testBit k then '1' else '0'))

/-- Source `String` (the name `String` is Lean's string type): a `[]gcBits` of length
`int(nelems)` is laid over the memory at `b` and every element is rendered with `"%.32b"`. -/
def gcBitsString (b nelems : Nat) (m : Mem) : String :=
  (List.range (toInt nelems).toNat).foldl
    (fun res i => res ++ fmtBinary 32 (LoadUint32 m (uint32p b i))) ""

/-- The round count `num` of `show64`: `len/64 + 1`, minus one when `len%64 == 0 || len <= 64`. -/
def show64Num (len : Nat) : Nat :=
  let num := (len / 64 + 1) % uintptrSize
  if len % 64 = 0 ∨ len ≤ 64 then (num + uintptrSize - 1) % uintptrSize else num

/-- The address of the eight bytes read in round `i` of `show64`: `uintptr(b) + uintptr(8*i)`. -/
def blockAddr (b i : Nat) : Nat := (b + 8 * i % uintptrSize) % uintptrSize

/-- The `uint64` that `show64` assembles from the eight bytes at `a`, least significant first. -/
def aCache (m : Mem) (a : Nat) : Nat :=
  byteAt m a ||| (byteAt m (a + 1) <<< 8) ||| (byteAt m (a + 2) <<< 16) |||
    (byteAt m (a + 3) <<< 24) ||| (byteAt m (a + 4) <<< 32) ||| (byteAt m (a + 5) <<< 40) |||
    (byteAt m (a + 6) <<< 48) ||| (byteAt m (a + 7) <<< 56)

/-- Source `(*gcBits).show64`: the line handed to `log.Println`. -/
def show64 (b len : Nat) (m : Mem) : String :=
  (List.range (toInt (show64Num len)).toNat).foldl
    (fun ss i => ss ++ fmtBinary 64 (aCache m (blockAddr b i)) ++ " ") ""

/-- The round count `num` of `invert`: `len/32 + 1`, minus one when `len%32 == 0`. -/
def invertNum (len : Nat) : Nat :=
  let num := (len / 32 + 1) % uintptrSize
  if len % 32 = 0 then (num + uintptrSize - 1) % uintptrSize else num

/-! ## Interleaved executions of `setMarked` -/

/-- Where a worker stands inside `setMarked`: about to load the word, about to attempt the
compare-and-swap with the value it loaded, or returned. -/
inductive Pc where
  | load
  | cas (val : Nat)
  | returned
  deriving DecidableEq, Repr

/-- One atomic action of a worker that runs `setMarked` on cursor `c`: the `atomic.LoadUint32`,
or the `atomic.CompareAndSwapUint32`, which ends the call when it succeeds and sends the worker
back to the load when it fails. -/
def setMarkedStep (c : markBits) (m : Mem) : Pc → Mem × Pc
  | .load => (m, .cas (LoadUint32 m c.uint32p))
  | .cas val =>
    match CompareAndSwapUint32 m c.uint32p val (val ^^^ c.mask) with
    | (m', true) => (m', .returned)
    | (m', false) => (m', .load)
  | .returned => (m, .returned)

/-- The shared memory and the position of every worker. -/
structure Shared where
  mem : Mem
  pc : Nat → Pc

/-- All workers are about to start their call on memory `m`. -/
def Shared.init (m : Mem) : Shared := { mem := m, pc := fun _ => .load }

/-- Worker `i` (of `N` workers, worker `i` marking with cursor `cursor i`) performs its next
atomic action. -/
def Shared.step (cursor : Nat → markBits) (N : Nat) (s : Shared) (i : Nat) : Shared :=
  if i < N then
    { mem := (setMarkedStep (cursor i) s.mem (s.pc i)).1,
      pc := Function.update s.pc i (setMarkedStep (cursor i) s.mem (s.pc i)).2 }
  else s

/-- An interleaving is the list of the workers that act, in order. -/
def Shared.run (cursor : Nat → markBits) (N : Nat) (sched : List Nat) (s : Shared) : Shared :=
  sched.foldl (Shared.step cursor N) s

/-- The invariant of the interleaved executions of `N` workers that mark distinct bits of the
word at `p`: bit `k` of the word is set exactly when the worker marking bit `k` has returned. -/
def MarkInv (N p : Nat) (bit : Nat → Nat) (s : Shared) : Prop :=
  ∀ k, (LoadUint32 s.mem p).testBit k = true ↔ ∃ i, i < N ∧ bit i = k ∧ s.pc i = Pc.returned

/-- The interleaving in which the workers `0 .. n-1` take three actions each, one worker after
the other. -/
def finishAll : Nat → List Nat
  | 0 => []
  | n + 1 => finishAll n ++ [n, n, n]

/-! ## Memory lemmas -/

theorem byteAt_lt (m : Mem) (a : Nat) : byteAt m a < 256 :=
  Nat.mod_lt _ (by decide)

theorem LoadUint32_lt (m : Mem) (p : Nat) : LoadUint32 m p < 2 ^ 32 := by
  have h0 := byteAt_lt m p
  have h1 := byteAt_lt m (p + 1)
  have h2 := byteAt_lt m (p + 2)
  have h3 := byteAt_lt m (p + 3)
  unfold LoadUint32
  omega

theorem byteAt_StoreUint32 (m : Mem) (p v a : Nat) :
    byteAt (StoreUint32 m p v) a =
      if a = p then v % 256
      else if a = p + 1 then v / 256 % 256
      else if a = p + 2 then v / 65536 % 256
      else if a = p + 3 then v / 16777216 % 256
      else byteAt m a := by
  unfold byteAt StoreUint32
  split_ifs <;> simp

theorem LoadUint32_StoreUint32_same (m : Mem) (p v : Nat) :
    LoadUint32 (StoreUint32 m p v) p = v % 2 ^ 32 := by
  unfold LoadUint32
  simp only [byteAt_StoreUint32]
  simp
  omega

theorem LoadUint32_StoreUint32_disjoint (m : Mem) (p q v : Nat) (h : p + 4 ≤ q ∨ q + 4 ≤ p) :
    LoadUint32 (StoreUint32 m p v) q = LoadUint32 m q := by
  unfold LoadUint32
  simp only [byteAt_StoreUint32]
  have e0 : ¬ q = p := by omega
  have e1 : ¬ q = p + 1 := by omega
  have e2 : ¬ q = p + 2 := by omega
  have e3 : ¬ q = p + 3 := by omega
  have f0 : ¬ q + 1 = p := by omega
  have f1 : ¬ q + 1 = p + 1 := by omega
  have f2 : ¬ q + 1 = p + 2 := by omega
  have f3 : ¬ q + 1 = p + 3 := by omega
  have g0 : ¬ q + 2 = p := by omega
  have g1 : ¬ q + 2 = p + 1 := by omega
  have g2 : ¬ q + 2 = p + 2 := by omega
  have g3 : ¬ q + 2 = p + 3 := by omega
  have k0 : ¬ q + 3 = p := by omega
  have k1 : ¬ q + 3 = p + 1 := by omega
  have k2 : ¬ q + 3 = p + 2 := by omega
  have k3 : ¬ q + 3 = p + 3 := by omega
  simp only [e0, e1, e2, e3, f0, f1, f2, f3, g0, g1, g2, g3, k0, k1, k2, k3, if_false]

/-- Without interference the first compare-and-swap of `setMarked` succeeds: with any positive
bound on the rounds the call returns, having stored `val ^ mask`. -/
theorem setMarked_eq (c : markBits) (fuel : Nat) (m : Mem) :
    c.setMarked (fuel + 1) m =
      some (StoreUint32 m c.uint32p (LoadUint32 m c.uint32p ^^^ c.mask)) := by
  simp [markBits.setMarked, CompareAndSwapUint32]

/-- Without interference the first compare-and-swap of `clearMarked` succeeds. -/
theorem clearMarked_eq (c : markBits) (fuel : Nat) (m : Mem) :
    c.clearMarked (fuel + 1) m =
      some (StoreUint32 m c.uint32p (LoadUint32 m c.uint32p &&& not32 c.mask)) := by
  simp [markBits.clearMarked, CompareAndSwapUint32]

/-! ## Bit lemmas -/

theorem and_two_pow_eq_zero (x j : Nat) : x &&& 2 ^ j = 0 ↔ x.testBit j = false := by
  constructor
  · intro h
    have := congrArg (fun y => Nat.testBit y j) h
    simpa [Nat.testBit_two_pow_self] using this
  · intro h
    apply Nat.eq_of_testBit_eq
    intro i
    by_cases hij : j = i
    · subst hij; simp [h]
    · simp [Nat.testBit_two_pow, hij]

theorem bitp_mask (b n : Nat) : (bitp b n).2 = 2 ^ (n % 32) := by
  have h : n % 32 < 32 := Nat.mod_lt _ (by decide)
  have h2 : (2:Nat) ^ (n % 32) < 2 ^ 32 := Nat.pow_lt_pow_right (by decide) h
  show (1 <<< (n % 32)) % 2 ^ 32 = 2 ^ (n % 32)
  rw [Nat.one_shiftLeft, Nat.mod_eq_of_lt h2]

theorem two_pow_mod32_lt (n : Nat) : (2:Nat) ^ (n % 32) < 2 ^ 32 :=
  Nat.pow_lt_pow_right (by decide) (Nat.mod_lt _ (by decide))

theorem allOnes32_eq : allOnes32 = 2 ^ 32 - 1 := by decide

theorem testBit_not32 (x k : Nat) :
    (not32 x).testBit k = xor (x.testBit k) (decide (k < 32)) := by
  unfold not32
  rw [allOnes32_eq, Nat.testBit_xor, Nat.testBit_two_pow_sub_one]

theorem not32_lt {x : Nat} (h : x < 2 ^ 32) : not32 x < 2 ^ 32 :=
  Nat.xor_lt_two_pow h (by decide)

theorem not32_not32 (x : Nat) : not32 (not32 x) = x := by
  unfold not32
  rw [Nat.xor_assoc, Nat.xor_self, Nat.xor_zero]

/-- With a single-bit mask `2^j`, `isMarked` reads bit `j` of the cursor's word. -/
theorem isMarked_eq_testBit (c : markBits) (m : Mem) (j : Nat) (hc : c.mask = 2 ^ j) :
    c.isMarked m = (LoadUint32 m c.uint32p).testBit j := by
  unfold markBits.isMarked
  rw [hc]
  cases h : (LoadUint32 m c.uint32p).testBit j
  · simp [(and_two_pow_eq_zero _ _).2 h]
  · have : ¬ (LoadUint32 m c.uint32p &&& 2 ^ j = 0) := by
      rw [and_two_pow_eq_zero]; simp [h]
    simp [this]

theorem markBitsAt_isMarked (b n : Nat) (m : Mem) :
    (markBitsAt b n).isMarked m = (LoadUint32 m (uint32p b (n / 32))).testBit (n % 32) :=
  isMarked_eq_testBit (markBitsAt b n) m (n % 32) (bitp_mask b n)

/-! ## Sizes, word addresses and the inversion loop -/

theorem ceil_div_64 (n : Nat) : ⌈(n : ℚ) / 64⌉₊ = (n + 63) / 64 := by
  apply eq_of_forall_ge_iff
  intro k
  rw [Nat.ceil_le, div_le_iff₀ (by norm_num)]
  norm_cast
  omega

theorem ceil_div_32 (n : Nat) : ⌈(n : ℚ) / 32⌉₊ = (n + 31) / 32 := by
  apply eq_of_forall_ge_iff
  intro k
  rw [Nat.ceil_le, div_le_iff₀ (by norm_num)]
  norm_cast
  omega

theorem toInt_toNat {n : Nat} (h : n < 2 ^ 63) : (toInt n).toNat = n := by
  unfold toInt
  rw [if_pos h]
  exact Int.toNat_natCast n

theorem uint32Needed_eq {nelems : Nat} (h : nelems ≤ 2 ^ 64 - 64) :
    uint32Needed nelems = (nelems + 63) / 64 * 2 := by
  unfold uint32Needed uintptrSize
  dsimp only
  omega

theorem uint32Needed_lt (nelems : Nat) : uint32Needed nelems < 2 ^ 59 := by
  unfold uint32Needed uintptrSize
  dsimp only
  omega

theorem uint32p_disjoint (b i j : Nat) (hi : i < 2 ^ 62) (hj : j < 2 ^ 62) (hij : i ≠ j) :
    uint32p b i + 4 ≤ uint32p b j ∨ uint32p b j + 4 ≤ uint32p b i := by
  unfold uint32p addb uintptrSize
  omega

theorem foldl_range_succ (b n : Nat) (m : Mem) :
    (List.range (n + 1)).foldl (invertWord b) m =
      invertWord b ((List.range n).foldl (invertWord b) m) n := by
  rw [List.range_succ, List.foldl_append]
  rfl

theorem LoadUint32_invertWord_same (b i : Nat) (m : Mem) :
    LoadUint32 (invertWord b m i) (uint32p b i) = not32 (LoadUint32 m (uint32p b i)) := by
  unfold invertWord
  rw [LoadUint32_StoreUint32_same, Nat.mod_eq_of_lt (not32_lt (LoadUint32_lt _ _))]

theorem LoadUint32_invertWord_other (b i j : Nat) (m : Mem) (hi : i < 2 ^ 62) (hj : j < 2 ^ 62)
    (hij : i ≠ j) :
    LoadUint32 (invertWord b m i) (uint32p b j) = LoadUint32 m (uint32p b j) := by
  unfold invertWord
  exact LoadUint32_StoreUint32_disjoint _ _ _ _ (uint32p_disjoint b i j hi hj hij)

theorem LoadUint32_foldl_invertWord (b n j : Nat) (m : Mem) (hn : n ≤ 2 ^ 62) (hj : j < 2 ^ 62) :
    LoadUint32 ((List.range n).foldl (invertWord b) m) (uint32p b j) =
      if j < n then not32 (LoadUint32 m (uint32p b j)) else LoadUint32 m (uint32p b j) := by
  induction n with
  | zero => simp
  | succ n ih =>
    have ih := ih (by omega)
    rw [foldl_range_succ]
    by_cases hjn : j = n
    · subst hjn
      rw [LoadUint32_invertWord_same, ih]
      simp
    · rw [LoadUint32_invertWord_other b n j _ (by omega) hj (Ne.symm hjn), ih]
      by_cases hlt : j < n
      · simp [hlt, Nat.lt_succ_of_lt hlt]
      · have : ¬ j < n + 1 := by omega
        simp [hlt, this]

theorem invertLoop_eq_foldl (b num : Nat) (m : Mem) (h : num < 2 ^ 63) :
    invertLoop b num m = (List.range num).foldl (invertWord b) m := by
  unfold invertLoop
  rw [toInt_toNat h]

theorem invert_eq_foldl (b len : Nat) (m : Mem) (hlen : len < uintptrSize) :
    invert b len m = (List.range ((len + 31) / 32)).foldl (invertWord b) m := by
  unfold uintptrSize at hlen
  unfold invert uintptrSize
  dsimp only
  by_cases h0 : len % 32 = 0
  · rw [if_pos h0]
    have e : (((len / 32 + 1) % 2 ^ 64 + 2 ^ 64 - 1) % 2 ^ 64) = (len + 31) / 32 := by omega
    rw [e]
    exact invertLoop_eq_foldl _ _ _ (by omega)
  · rw [if_neg h0]
    have e : (len / 32 + 1) % 2 ^ 64 = (len + 31) / 32 := by omega
    rw [e]
    exact invertLoop_eq_foldl _ _ _ (by omega)

theorem byteAt_foldl_invertWord_frame (b n a : Nat) (m : Mem)
    (h : ∀ j, j < n → a < uint32p b j ∨ uint32p b j + 4 ≤ a) :
    byteAt ((List.range n).foldl (invertWord b) m) a = byteAt m a := by
  induction n with
  | zero => simp
  | succ n ih =>
    rw [foldl_range_succ]
    unfold invertWord
    rw [byteAt_StoreUint32]
    have hn := h n (Nat.lt_succ_self n)
    have e0 : ¬ a = uint32p b n := by omega
    have e1 : ¬ a = uint32p b n + 1 := by omega
    have e2 : ¬ a = uint32p b n + 2 := by omega
    have e3 : ¬ a = uint32p b n + 3 := by omega
    simp only [e0, e1, e2, e3, if_false]
    exact ih (fun j hj => h j (Nat.lt_succ_of_lt hj))

theorem LoadUint32_zeroed (m : Mem) (p size q : Nat) (hz : ZeroedBlock m p size)
    (hq : p ≤ q) (hq4 : q + 4 ≤ p + size) : LoadUint32 m q = 0 := by
  have h0 := hz.2 (q - p) (by omega)
  have h1 := hz.2 (q + 1 - p) (by omega)
  have h2 := hz.2 (q + 2 - p) (by omega)
  have h3 := hz.2 (q + 3 - p) (by omega)
  rw [show p + (q - p) = q by omega] at h0
  rw [show p + (q + 1 - p) = q + 1 by omega] at h1
  rw [show p + (q + 2 - p) = q + 2 by omega] at h2
  rw [show p + (q + 3 - p) = q + 3 by omega] at h3
  unfold LoadUint32
  rw [h0, h1, h2, h3]

/-! ## Setting a mark bit -/

/-- Claim C1 (fails on the code): `setMarked` followed by `isMarked` on the cursor of bit `i`
does not always return true.  `setMarked` stores `val ^ mask`, so for every base, bit index and
memory the answer of `isMarked` afterwards is the negation of its answer before; at bit 0 of a
word that already holds 1 the bit is set before and clear afterwards. -/
theorem setMarked_then_isMarked_toggles :
    (∀ (b i fuel : Nat) (m : Mem),
      ((markBitsAt b i).setMarked (fuel + 1) m).map (markBitsAt b i).isMarked =
        some (!(markBitsAt b i).isMarked m)) ∧
    (markBitsAt 0 0).isMarked (wordMem 0 1) = true ∧
    ((markBitsAt 0 0).setMarked 1 (wordMem 0 1)).map (markBitsAt 0 0).isMarked = some false := by
  refine ⟨?_, by decide, by decide⟩
  intro b i fuel m
  rw [setMarked_eq, Option.map_some', markBitsAt_isMarked, markBitsAt_isMarked]
  have hm : (markBitsAt b i).mask = 2 ^ (i % 32) := bitp_mask b i
  have hp : (markBitsAt b i).uint32p = uint32p b (i / 32) := rfl
  rw [hm, hp, LoadUint32_StoreUint32_same,
    Nat.mod_eq_of_lt (Nat.xor_lt_two_pow (LoadUint32_lt _ _) (two_pow_mod32_lt i))]
  simp [Nat.testBit_two_pow_self]

/-- Claim C2 (fails on the code): `setMarked` is not idempotent.  Applied twice in a row it gives
the cursor's word its original value back, for every base, bit index and memory; from a zero word
one application at bit 0 leaves the word 1 with the bit set, two leave the word 0 with the bit
clear. -/
theorem setMarked_twice_restores_word :
    (∀ (b i f g : Nat) (m : Mem),
      ∃ m1 m2, (markBitsAt b i).setMarked (f + 1) m = some m1 ∧
        (markBitsAt b i).setMarked (g + 1) m1 = some m2 ∧
        LoadUint32 m2 (markBitsAt b i).uint32p = LoadUint32 m (markBitsAt b i).uint32p) ∧
    ((markBitsAt 0 0).setMarked 1 zeroMem).map (fun m => LoadUint32 m 0) = some 1 ∧
    (((markBitsAt 0 0).setMarked 1 zeroMem).bind ((markBitsAt 0 0).setMarked 1)).map
      (fun m => LoadUint32 m 0) = some 0 ∧
    (((markBitsAt 0 0).setMarked 1 zeroMem).bind ((markBitsAt 0 0).setMarked 1)).map
      (markBitsAt 0 0).isMarked = some false := by
  refine ⟨?_, by decide, by decide, by decide⟩
  intro b i f g m
  refine ⟨_, _, setMarked_eq _ f m, setMarked_eq _ g _, ?_⟩
  have hm : (markBitsAt b i).mask = 2 ^ (i % 32) := bitp_mask b i
  rw [hm, LoadUint32_StoreUint32_same, LoadUint32_StoreUint32_same,
    Nat.mod_eq_of_lt (Nat.xor_lt_two_pow (LoadUint32_lt _ _) (two_pow_mod32_lt i)),
    Nat.mod_eq_of_lt (Nat.xor_lt_two_pow
      (Nat.xor_lt_two_pow (LoadUint32_lt _ _) (two_pow_mod32_lt i)) (two_pow_mod32_lt i)),
    Nat.xor_assoc, Nat.xor_self, Nat.xor_zero]

/-! ## Traversal -/

/-- Claim C3 (fails on the code): eight calls of `advance` from the cursor of bit 0 do not give
the cursor of bit 8.  `advance` wraps the mask at `1<<7` and moves the pointer by one byte, so the
cursor is (byte 1, mask 1, index 8), while `bitp(8)` is (byte 0, mask `1<<8`); likewise 31 calls
give (byte 3, mask `1<<7`, index 31), while `bitp(31)` is (byte 0, mask `1<<31`). -/
theorem advance_eight_ne_bitp :
    markBits.advance^[8] (markBits.first 0) = { uint32p := 1, mask := 1, index := 8 } ∧
    bitp 0 8 = (0, 256) ∧
    markBits.advance^[8] (markBits.first 0) ≠ markBitsAt 0 8 ∧
    markBits.advance^[31] (markBits.first 0) = { uint32p := 3, mask := 128, index := 31 } ∧
    bitp 0 31 = (0, 2147483648) := by
  decide

/-! ## Span resolution -/

/-- Claim C4 (fails on the code): `markBitsForSpan` never returns a cursor with mask 1.  Its named
result is never assigned, so for every heap, base and world it returns the zero cursor (mask 0)
with an error: the error of `spanOf` when the lookup fails, and
`"markBitsForSpan: unaligned start"` when the lookup succeeds, as on the one-span heap. -/
theorem markBitsForSpan_always_error :
    (∀ (h : xHeap) (logg : Bool) (base : Nat) (w : World),
      (markBitsForSpan h logg base w).1 =
        match h.spanOf w.mem base with
        | .error err => (markBits.zero, some err)
        | .ok _ => (markBits.zero, some "markBitsForSpan: unaligned start")) ∧
    (markBitsForSpan oneSpanHeap false 4096 zeroWorld).1 =
      ({ uint32p := 0, mask := 0, index := 0 }, some "markBitsForSpan: unaligned start") := by
  refine ⟨?_, by decide⟩
  intro h logg base w
  unfold markBitsForSpan markBitsForAddr
  cases hs : h.spanOf w.mem base <;> simp [markBits.zero]

/-- Claim C10: `markBitsForAddr` returns an error exactly when `spanOf` fails; it then returns
the error of `spanOf` and leaves the world (memory and output) as it was, whatever `objIndex` and
`setMarkBitsForIndex` are, so neither is called; `markBitsForSpan` returns the same error with the
zero cursor, the world again unchanged. -/
theorem markBitsForAddr_error_iff (h : xHeap) (logg : Bool) (p : Nat) (w : World) :
    ((markBitsForAddr h logg p w).1 ≠ none ↔ ∃ err, h.spanOf w.mem p = .error err) ∧
    (∀ err, h.spanOf w.mem p = .error err →
      markBitsForAddr h logg p w = (some err, w) ∧
      markBitsForSpan h logg p w = ((markBits.zero, some err), w) ∧
      ∀ h2 : xHeap, h2.spanOf = h.spanOf →
        markBitsForAddr h2 logg p w = (some err, w) ∧
        markBitsForSpan h2 logg p w = ((markBits.zero, some err), w)) := by
  constructor
  · unfold markBitsForAddr
    cases hs : h.spanOf w.mem p <;> simp
  · intro err herr
    have key : ∀ h2 : xHeap, h2.spanOf = h.spanOf →
        markBitsForAddr h2 logg p w = (some err, w) ∧
        markBitsForSpan h2 logg p w = ((markBits.zero, some err), w) := by
      intro h2 h2eq
      have e1 : markBitsForAddr h2 logg p w = (some err, w) := by
        unfold markBitsForAddr
        rw [h2eq, herr]
      refine ⟨e1, ?_⟩
      unfold markBitsForSpan
      rw [e1]
    exact ⟨(key h rfl).1, (key h rfl).2, key⟩

/-- On the heap without spans, resolving address 7 returns `"not found"` from both entry points
and leaves the world unchanged. -/
theorem markBitsForAddr_error_iff_witness :
    markBitsForAddr emptyHeap true 7 zeroWorld = (some "not found", zeroWorld) ∧
    markBitsForSpan emptyHeap true 7 zeroWorld = ((markBits.zero, some "not found"), zeroWorld) :=
  ⟨(((markBitsForAddr_error_iff emptyHeap true 7 zeroWorld).2) "not found" rfl).1,
   (((markBitsForAddr_error_iff emptyHeap true 7 zeroWorld).2) "not found" rfl).2.1⟩

/-! ## Clearing a mark bit -/

/-- Claim C7: for every base, bit index `i` and memory, `clearMarked` on the cursor of bit `i`,
run without interference, returns after storing `old & ^mask` into the cursor's word, and
`isMarked` on the same cursor then returns false. -/
theorem clearMarked_then_isMarked (b i fuel : Nat) (m : Mem) :
    (markBitsAt b i).clearMarked (fuel + 1) m =
      some (StoreUint32 m (bitp b i).1 (LoadUint32 m (bitp b i).1 &&& not32 (bitp b i).2)) ∧
    ((markBitsAt b i).clearMarked (fuel + 1) m).map (markBitsAt b i).isMarked = some false := by
  refine ⟨clearMarked_eq _ fuel m, ?_⟩
  rw [clearMarked_eq, Option.map_some', markBitsAt_isMarked]
  have hm : (markBitsAt b i).mask = 2 ^ (i % 32) := bitp_mask b i
  have hp : (markBitsAt b i).uint32p = uint32p b (i / 32) := rfl
  have hlt : i % 32 < 32 := Nat.mod_lt _ (by decide)
  rw [hm, hp, LoadUint32_StoreUint32_same, Nat.testBit_mod_two_pow, Nat.testBit_and,
    testBit_not32, Nat.testBit_two_pow_self]
  simp [hlt]

/-! ## Construction -/

/-- Claim C5 (fails as stated): for `nelems = 2^64 - 1` the sum `nelems + 63` wraps, the word
count is 0 and `newMarkBits` requests 0 bytes, not the `4 * (ceil(nelems/64) * 2) = 2^61` bytes
of the claim. -/
theorem newMarkBits_request_wraps :
    0 < 2 ^ 64 - 1 ∧ 2 ^ 64 - 1 < uintptrSize ∧
    (newMarkBits echoAlloc (2 ^ 64 - 1) true zeroMem).1 = .ok 0 ∧
    4 * (⌈((2 ^ 64 - 1 : Nat) : ℚ) / 64⌉₊ * 2) = 2 ^ 61 ∧
    (newMarkBits echoAlloc (2 ^ 64 - 1) true zeroMem).1 ≠
      echoAlloc (4 * (⌈((2 ^ 64 - 1 : Nat) : ℚ) / 64⌉₊ * 2)) := by
  have hc : 4 * (⌈((2 ^ 64 - 1 : Nat) : ℚ) / 64⌉₊ * 2) = 2 ^ 61 := by
    rw [ceil_div_64]
    norm_num
  refine ⟨by decide, by decide, rfl, hc, ?_⟩
  rw [hc]
  intro h
  have h2 : (newMarkBits echoAlloc (2 ^ 64 - 1) true zeroMem).1 = .ok 0 := rfl
  rw [h2] at h
  unfold echoAlloc at h
  injection h with h
  exact absurd h (by decide)

/-- Claim C5 (amended): for every `nelems ≤ 2^64 - 64` the word count is
`W = ceil(nelems/64) * 2` and `newMarkBits` passes exactly `4 * W` to the allocator: whatever the
allocator, the pointer or error returned is the allocator's answer to a request of `4 * W` bytes.
For `nelems` = 1, 64, 65 the word count is 2, 2, 4. -/
theorem newMarkBits_request :
    (∀ nelems : Nat, nelems ≤ 2 ^ 64 - 64 →
      uint32Needed nelems = ⌈(nelems : ℚ) / 64⌉₊ * 2 ∧
      ∀ (alloc : Nat → Except String Nat) (zero : Bool) (m : Mem),
        (newMarkBits alloc nelems zero m).1 = alloc (4 * (⌈(nelems : ℚ) / 64⌉₊ * 2))) ∧
    uint32Needed 1 = 2 ∧ uint32Needed 64 = 2 ∧ uint32Needed 65 = 4 := by
  refine ⟨?_, by decide, by decide, by decide⟩
  intro nelems h
  rw [ceil_div_64, ← uint32Needed_eq h]
  refine ⟨rfl, ?_⟩
  intro alloc zero m
  have hlt := uint32Needed_lt nelems
  have hsz : 4 * uint32Needed nelems % uintptrSize = 4 * uint32Needed nelems := by
    unfold uintptrSize
    omega
  unfold newMarkBits
  rw [hsz]
  cases alloc (4 * uint32Needed nelems) <;> cases zero <;> rfl

/-- For `nelems = 65` the allocator receives a request of `4 * 4 = 16` bytes. -/
theorem newMarkBits_request_witness :
    uint32Needed 65 = ⌈((65 : Nat) : ℚ) / 64⌉₊ * 2 ∧
    (newMarkBits echoAlloc 65 false zeroMem).1 = echoAlloc (4 * (⌈((65 : Nat) : ℚ) / 64⌉₊ * 2)) :=
  ⟨(newMarkBits_request.1 65 (by decide)).1,
   (newMarkBits_request.1 65 (by decide)).2 echoAlloc false zeroMem⟩

/-- Claim C6 (fails as stated): for `nelems = 2^64 - 1` the word count wraps to 0, so
`newMarkBits(nelems, false)` inverts no word and bit 0 of the array it returns, on all-zero
memory, is clear. -/
theorem newMarkBits_inverted_wraps :
    0 < 2 ^ 64 - 1 ∧ 2 ^ 64 - 1 < uintptrSize ∧
    (newMarkBits (blockAlloc 0) (2 ^ 64 - 1) false zeroMem).1 = .ok 0 ∧
    (markBitsAt 0 0).isMarked (newMarkBits (blockAlloc 0) (2 ^ 64 - 1) false zeroMem).2
      = false := by
  refine ⟨by decide, by decide, rfl, by decide⟩

/-- Claim C6 (amended): for every `nelems ≤ 2^64 - 64` and every `i < nelems`, when the allocator
succeeds with a zeroed block of the requested size, bit `i` (read through `bitp(i)` and
`isMarked`) is clear in the array built by `newMarkBits(nelems, true)` and set in the array built
by `newMarkBits(nelems, false)`, which is what `newAllocBits(nelems)` builds. -/
theorem newMarkBits_bits (alloc : Nat → Except String Nat) (nelems p i : Nat) (m : Mem)
    (hn : nelems ≤ 2 ^ 64 - 64) (hi : i < nelems)
    (halloc : alloc (4 * uint32Needed nelems % uintptrSize) = .ok p)
    (hz : ZeroedBlock m p (4 * uint32Needed nelems)) :
    newMarkBits alloc nelems true m = (.ok p, m) ∧
    (markBitsAt p i).isMarked (newMarkBits alloc nelems true m).2 = false ∧
    (newMarkBits alloc nelems false m).1 = .ok p ∧
    (markBitsAt p i).isMarked (newMarkBits alloc nelems false m).2 = true ∧
    newAllocBits alloc nelems m = newMarkBits alloc nelems false m := by
  have hW := uint32Needed_eq hn
  have hWlt := uint32Needed_lt nelems
  have hj : i / 32 < uint32Needed nelems := by omega
  have hzb := hz.1
  unfold uintptrSize at hzb
  have haddr : uint32p p (i / 32) = p + 4 * (i / 32) := by
    unfold uint32p addb uintptrSize
    omega
  have hload : LoadUint32 m (uint32p p (i / 32)) = 0 := by
    rw [haddr]
    exact LoadUint32_zeroed m p _ _ hz (by omega) (by omega)
  have ht : newMarkBits alloc nelems true m = (.ok p, m) := by
    unfold newMarkBits
    rw [halloc]
    rfl
  have hf : newMarkBits alloc nelems false m =
      (.ok p, (List.range (uint32Needed nelems)).foldl (invertWord p) m) := by
    unfold newMarkBits
    rw [halloc, ← invertLoop_eq_foldl p (uint32Needed nelems) m (by omega)]
    rfl
  refine ⟨ht, ?_, ?_, ?_, rfl⟩
  · rw [ht, markBitsAt_isMarked, hload]
    simp
  · rw [hf]
  · rw [hf, markBitsAt_isMarked]
    show Nat.testBit (LoadUint32 ((List.range (uint32Needed nelems)).foldl (invertWord p) m)
      (uint32p p (i / 32))) (i % 32) = true
    rw [LoadUint32_foldl_invertWord p _ _ m (by omega) (by omega), if_pos hj, hload,
      testBit_not32]
    have : i % 32 < 32 := Nat.mod_lt _ (by decide)
    simp [this]

/-- For 65 bits in a zeroed block at address 4096, bit 64 is clear after `newMarkBits(65, true)`
and set after `newMarkBits(65, false)`. -/
theorem newMarkBits_bits_witness :
    newMarkBits (blockAlloc 4096) 65 true zeroMem = (.ok 4096, zeroMem) ∧
    (markBitsAt 4096 64).isMarked (newMarkBits (blockAlloc 4096) 65 true zeroMem).2 = false ∧
    (newMarkBits (blockAlloc 4096) 65 false zeroMem).1 = .ok 4096 ∧
    (markBitsAt 4096 64).isMarked (newMarkBits (blockAlloc 4096) 65 false zeroMem).2 = true ∧
    newAllocBits (blockAlloc 4096) 65 zeroMem = newMarkBits (blockAlloc 4096) 65 false zeroMem :=
  newMarkBits_bits (blockAlloc 4096) 65 4096 64 zeroMem (by decide) (by decide) rfl
    (by decide)

/-! ## Bulk inversion -/

/-- Claim C8: for every bitmap base, every `len` (a `uintptr`) and every memory, applying
`invert(len)` twice restores the value of every bit with index in `[0, len)` and of every word of
the array. -/
theorem invert_invert (b len : Nat) (m : Mem) (hlen : len < uintptrSize) :
    (∀ i, i < len →
      (markBitsAt b i).isMarked (invert b len (invert b len m)) = (markBitsAt b i).isMarked m) ∧
    (∀ j, j < 2 ^ 62 →
      LoadUint32 (invert b len (invert b len m)) (uint32p b j) = LoadUint32 m (uint32p b j)) := by
  have hl := hlen
  unfold uintptrSize at hl
  have words : ∀ j, j < 2 ^ 62 →
      LoadUint32 (invert b len (invert b len m)) (uint32p b j) = LoadUint32 m (uint32p b j) := by
    intro j hj
    rw [invert_eq_foldl b len _ hlen, invert_eq_foldl b len m hlen,
      LoadUint32_foldl_invertWord b _ j _ (by omega) hj,
      LoadUint32_foldl_invertWord b _ j _ (by omega) hj]
    split_ifs
    · exact not32_not32 _
    · rfl
  refine ⟨?_, words⟩
  intro i hi
  rw [markBitsAt_isMarked, markBitsAt_isMarked, words (i / 32) (by omega)]

/-- Inverting 33 bits of the bitmap at address 0 twice restores its bits and words. -/
theorem invert_invert_witness :
    (∀ i, i < 33 →
      (markBitsAt 0 i).isMarked (invert 0 33 (invert 0 33 (wordMem 0 5))) =
        (markBitsAt 0 i).isMarked (wordMem 0 5)) ∧
    (∀ j, j < 2 ^ 62 →
      LoadUint32 (invert 0 33 (invert 0 33 (wordMem 0 5))) (uint32p 0 j) =
        LoadUint32 (wordMem 0 5) (uint32p 0 j)) :=
  invert_invert 0 33 (wordMem 0 5) (by decide)

/-- Claim C9: for every `len` (a `uintptr`), `invert(len)` runs its round on exactly the words
`0 .. ceil(len/32) - 1`, where `ceil(len/32)` is `len/32 + 1`, minus one when `len` is a multiple
of 32.  Each of these words is complemented, every bit with index in `[0, len)` is flipped, every
word with index at least `ceil(len/32)` keeps its value, and so does every byte outside the
complemented words. -/
theorem invert_complements (b len : Nat) (m : Mem) (hlen : len < uintptrSize) :
    invert b len m = (List.range ⌈(len : ℚ) / 32⌉₊).foldl (invertWord b) m ∧
    ⌈(len : ℚ) / 32⌉₊ = (if len % 32 = 0 then len / 32 + 1 - 1 else len / 32 + 1) ∧
    (∀ j, j < ⌈(len : ℚ) / 32⌉₊ →
      LoadUint32 (invert b len m) (uint32p b j) = not32 (LoadUint32 m (uint32p b j))) ∧
    (∀ i, i < len →
      (markBitsAt b i).isMarked (invert b len m) = !(markBitsAt b i).isMarked m) ∧
    (∀ j, ⌈(len : ℚ) / 32⌉₊ ≤ j → j < 2 ^ 62 →
      LoadUint32 (invert b len m) (uint32p b j) = LoadUint32 m (uint32p b j)) ∧
    (∀ a, (∀ j, j < ⌈(len : ℚ) / 32⌉₊ → a < uint32p b j ∨ uint32p b j + 4 ≤ a) →
      byteAt (invert b len m) a = byteAt m a) := by
  have hl := hlen
  unfold uintptrSize at hl
  rw [ceil_div_32, invert_eq_foldl b len m hlen]
  refine ⟨rfl, ?_, ?_, ?_, ?_, ?_⟩
  · split_ifs <;> omega
  · intro j hj
    rw [LoadUint32_foldl_invertWord b _ j _ (by omega) (by omega), if_pos hj]
  · intro i hi
    rw [markBitsAt_isMarked, markBitsAt_isMarked,
      LoadUint32_foldl_invertWord b _ _ _ (by omega) (by omega), if_pos (by omega),
      testBit_not32]
    have : i % 32 < 32 := Nat.mod_lt _ (by decide)
    simp [this]
  · intro j hj hj2
    rw [LoadUint32_foldl_invertWord b _ j _ (by omega) hj2, if_neg (by omega)]
  · intro a ha
    exact byteAt_foldl_invertWord_frame b _ a m ha

/-- Inverting 33 bits of the bitmap at address 0 complements words 0 and 1 and nothing else. -/
theorem invert_complements_witness :
    invert 0 33 (wordMem 0 5) =
      (List.range ⌈((33 : Nat) : ℚ) / 32⌉₊).foldl (invertWord 0) (wordMem 0 5) ∧
    ⌈((33 : Nat) : ℚ) / 32⌉₊ = (if 33 % 32 = 0 then 33 / 32 + 1 - 1 else 33 / 32 + 1) ∧
    (∀ j, j < ⌈((33 : Nat) : ℚ) / 32⌉₊ →
      LoadUint32 (invert 0 33 (wordMem 0 5)) (uint32p 0 j) =
        not32 (LoadUint32 (wordMem 0 5) (uint32p 0 j))) ∧
    (∀ i, i < 33 →
      (markBitsAt 0 i).isMarked (invert 0 33 (wordMem 0 5)) =
        !(markBitsAt 0 i).isMarked (wordMem 0 5)) ∧
    (∀ j, ⌈((33 : Nat) : ℚ) / 32⌉₊ ≤ j → j < 2 ^ 62 →
      LoadUint32 (invert 0 33 (wordMem 0 5)) (uint32p 0 j) =
        LoadUint32 (wordMem 0 5) (uint32p 0 j)) ∧
    (∀ a, (∀ j, j < ⌈((33 : Nat) : ℚ) / 32⌉₊ → a < uint32p 0 j ∨ uint32p 0 j + 4 ≤ a) →
      byteAt (invert 0 33 (wordMem 0 5)) a = byteAt (wordMem 0 5) a) :=
  invert_complements 0 33 (wordMem 0 5) (by decide)

/-! ## Masks and word addresses -/

theorem popCount32_two_pow : ∀ r, r < 32 → popCount32 (2 ^ r) = 1 := by decide

theorem advance_mask_aux : ∀ j, j < 31 →
    popCount32 (if 2 ^ j = 1 <<< 7 then 1 else (2 ^ j <<< 1) % uint32Size) = 1 := by decide

theorem advance_mask_two_pow (c : markBits) :
    ∀ j, j < 31 → c.mask = 2 ^ j → popCount32 c.advance.mask = 1 := by
  intro j hj hc
  have key := advance_mask_aux j hj
  unfold markBits.advance
  rw [hc]
  split_ifs with h
  · rw [if_pos h] at key
    exact key
  · rw [if_neg h] at key
    exact key

/-- Claim C11 (fails on the code): the mask of `bitp(n)` has exactly one bit set for every `n`, and
`advance` keeps a single-bit mask `1<<j` single-bit for `j < 31`, but not for `j = 31`: the
cursor of bit 31 has mask `1<<31`, which is not `1<<7`, so `advance` shifts it out of the `uint32`
and leaves mask 0, with no bit set. -/
theorem advance_top_bit_mask_zero :
    (∀ b n, popCount32 (bitp b n).2 = 1) ∧
    (∀ (c : markBits) (j : Nat), j < 31 → c.mask = 2 ^ j → popCount32 c.advance.mask = 1) ∧
    popCount32 (markBitsAt 0 31).mask = 1 ∧
    (markBitsAt 0 31).advance = { uint32p := 0, mask := 0, index := 32 } ∧
    popCount32 (markBitsAt 0 31).advance.mask = 0 := by
  refine ⟨?_, advance_mask_two_pow, by decide, by decide, by decide⟩
  intro b n
  rw [bitp_mask]
  exact popCount32_two_pow _ (Nat.mod_lt _ (by decide))

/-- Claim C12: for bit indices in the range of `uintptr`, `bitp(n)` is the word at byte offset
`(n/32)*4` from the base (word index `n/32`) with mask `1 << (n%32)`; distinct indices give
distinct (word, mask) pairs, and two indices have the same word exactly when their quotients by
32 agree. -/
theorem bitp_word_mask (b n₁ n₂ : Nat) (h₁ : n₁ < uintptrSize) (h₂ : n₂ < uintptrSize) :
    bitp b n₁ = ((b + n₁ / 32 * 4) % uintptrSize, 1 <<< (n₁ % 32)) ∧
    (bitp b n₁).1 = uint32p b (n₁ / 32) ∧
    (n₁ ≠ n₂ → bitp b n₁ ≠ bitp b n₂) ∧
    ((bitp b n₁).1 = (bitp b n₂).1 ↔ n₁ / 32 = n₂ / 32) := by
  unfold uintptrSize at h₁ h₂
  have hw : (bitp b n₁).1 = (bitp b n₂).1 ↔ n₁ / 32 = n₂ / 32 := by
    unfold bitp uint32p addb uintptrSize
    dsimp only
    omega
  refine ⟨?_, rfl, ?_, hw⟩
  · apply Prod.ext
    · unfold bitp uint32p addb uintptrSize
      dsimp only
      omega
    · rw [bitp_mask, Nat.one_shiftLeft]
  · intro hne heq
    have hq := hw.1 (congrArg Prod.fst heq)
    have hm := congrArg Prod.snd heq
    rw [bitp_mask, bitp_mask] at hm
    have hr := Nat.pow_right_injective (le_refl 2) hm
    omega

/-- Bits 31 and 32 of the bitmap at address 0 lie in different words; bit 31 is (word 0, mask
`1<<31`). -/
theorem bitp_word_mask_witness :
    bitp 0 31 = ((0 + 31 / 32 * 4) % uintptrSize, 1 <<< (31 % 32)) ∧
    (bitp 0 31).1 = uint32p 0 (31 / 32) ∧
    (31 ≠ 32 → bitp 0 31 ≠ bitp 0 32) ∧
    ((bitp 0 31).1 = (bitp 0 32).1 ↔ 31 / 32 = 32 / 32) :=
  bitp_word_mask 0 31 32 (by decide) (by decide)

/-! ## The allocation size -/

theorem ceil_div_8 (n : Nat) : ⌈(n : ℚ) / 8⌉₊ = (n + 7) / 8 := by
  apply eq_of_forall_ge_iff
  intro k
  rw [Nat.ceil_le, div_le_iff₀ (by norm_num)]
  norm_cast
  omega

theorem allocSize_eq (nelems : Nat) : allocSize nelems = 4 * uint32Needed nelems := by
  have := uint32Needed_lt nelems
  unfold allocSize uintptrSize
  omega

theorem newMarkBits_fst (alloc : Nat → Except String Nat) (nelems : Nat) (zero : Bool) (m : Mem) :
    (newMarkBits alloc nelems zero m).1 = alloc (allocSize nelems) := by
  unfold newMarkBits allocSize
  cases alloc (4 * uint32Needed nelems % uintptrSize) <;> cases zero <;> rfl

/-- Claim C20 (fails as stated): for `nelems = 2^64 - 1` the sum `nelems + 63` wraps modulo
`2^64`, the byte size passed to the allocator is 0, and it is smaller than
`ceil(nelems/8) = 2^61`. -/
theorem allocSize_wraps :
    2 ^ 64 - 1 < uintptrSize ∧
    (newMarkBits echoAlloc (2 ^ 64 - 1) true zeroMem).1 = .ok 0 ∧
    allocSize (2 ^ 64 - 1) = 0 ∧
    ⌈((2 ^ 64 - 1 : Nat) : ℚ) / 8⌉₊ = 2 ^ 61 ∧
    ¬ (⌈((2 ^ 64 - 1 : Nat) : ℚ) / 8⌉₊ ≤ allocSize (2 ^ 64 - 1)) := by
  have hc : ⌈((2 ^ 64 - 1 : Nat) : ℚ) / 8⌉₊ = 2 ^ 61 := by
    rw [ceil_div_8]
    norm_num
  have hs : allocSize (2 ^ 64 - 1) = 0 := by decide
  refine ⟨by decide, rfl, hs, hc, ?_⟩
  rw [hc, hs]
  decide

/-- Claim C20 (amended): for every `nelems ≤ 2^64 - 64` no step of the size computation wraps,
the byte size `newMarkBits` passes to the allocator is `4 * (2 * ((nelems + 63) / 64))`, and it is
at least `ceil(nelems/8)`: the requested storage has room for `nelems` bits. -/
theorem allocSize_ge (nelems : Nat) (h : nelems ≤ 2 ^ 64 - 64) :
    nelems + 63 < uintptrSize ∧
    (nelems + 63) / 64 * 2 < uintptrSize ∧
    4 * ((nelems + 63) / 64 * 2) < uintptrSize ∧
    allocSize nelems = 4 * (2 * ((nelems + 63) / 64)) ∧
    (∀ (alloc : Nat → Except String Nat) (zero : Bool) (m : Mem),
      (newMarkBits alloc nelems zero m).1 = alloc (4 * (2 * ((nelems + 63) / 64)))) ∧
    ⌈(nelems : ℚ) / 8⌉₊ ≤ allocSize nelems ∧
    nelems ≤ 8 * allocSize nelems := by
  have hW := uint32Needed_eq h
  have hA := allocSize_eq nelems
  have hsz : allocSize nelems = 4 * (2 * ((nelems + 63) / 64)) := by omega
  refine ⟨?_, ?_, ?_, hsz, ?_, ?_, ?_⟩
  · unfold uintptrSize; omega
  · unfold uintptrSize; omega
  · unfold uintptrSize; omega
  · intro alloc zero m
    rw [newMarkBits_fst, hsz]
  · rw [ceil_div_8]
    omega
  · omega

/-- For 65 bits the allocator is asked for 16 bytes, at least `ceil(65/8) = 9`. -/
theorem allocSize_ge_witness :
    ⌈((65 : Nat) : ℚ) / 8⌉₊ ≤ allocSize 65 ∧ allocSize 65 = 16 :=
  ⟨(allocSize_ge 65 (by decide)).2.2.2.2.2.1, by decide⟩

theorem StoreUint32_idem (m : Mem) (p v : Nat) :
    StoreUint32 (StoreUint32 m p v) p v = StoreUint32 m p v := by
  funext a
  unfold StoreUint32
  split_ifs <;> rfl

theorem testBit_eq_false_of_lt32 {w k : Nat} (hw : w < 2 ^ 32) (hk : 32 ≤ k) :
    w.testBit k = false :=
  Nat.testBit_lt_two_pow (lt_of_lt_of_le hw (Nat.pow_le_pow_right (by decide) hk))

theorem byteAt_StoreUint32_outside (m : Mem) (p v a : Nat) (h : a < p ∨ p + 4 ≤ a) :
    byteAt (StoreUint32 m p v) a = byteAt m a := by
  rw [byteAt_StoreUint32]
  have e0 : ¬ a = p := by omega
  have e1 : ¬ a = p + 1 := by omega
  have e2 : ¬ a = p + 2 := by omega
  have e3 : ¬ a = p + 3 := by omega
  simp only [e0, e1, e2, e3, if_false]

/-! ## The non-atomic setter and the frame of the atomic ones -/

/-- Claim C13: `setMarkedNonAtomic` stores `w | mask` into the cursor's word, for every cursor
(with a `uint32` mask) and every prior word value `w`, and a second application leaves the memory
as the first left it; when the mask selects bit `j`, `isMarked` returns true afterwards and every
other bit of the word keeps its value. -/
theorem setMarkedNonAtomic_sets :
    (∀ (c : markBits) (m : Mem), c.mask < 2 ^ 32 →
      LoadUint32 (c.setMarkedNonAtomic m) c.uint32p = LoadUint32 m c.uint32p ||| c.mask ∧
      c.setMarkedNonAtomic (c.setMarkedNonAtomic m) = c.setMarkedNonAtomic m) ∧
    (∀ (c : markBits) (m : Mem) (j : Nat), j < 32 → c.mask = 2 ^ j →
      c.isMarked (c.setMarkedNonAtomic m) = true ∧
      ∀ k, k ≠ j →
        (LoadUint32 (c.setMarkedNonAtomic m) c.uint32p).testBit k =
          (LoadUint32 m c.uint32p).testBit k) := by
  have hload : ∀ (c : markBits) (m : Mem), c.mask < 2 ^ 32 →
      LoadUint32 (c.setMarkedNonAtomic m) c.uint32p = LoadUint32 m c.uint32p ||| c.mask := by
    intro c m hc
    unfold markBits.setMarkedNonAtomic
    rw [LoadUint32_StoreUint32_same,
      Nat.mod_eq_of_lt (Nat.or_lt_two_pow (LoadUint32_lt _ _) hc)]
  constructor
  · intro c m hc
    refine ⟨hload c m hc, ?_⟩
    have h2 := hload c m hc
    unfold markBits.setMarkedNonAtomic at h2 ⊢
    rw [h2, Nat.lor_assoc, Nat.or_self]
    exact StoreUint32_idem _ _ _
  · intro c m j hj hc
    have hlt : c.mask < 2 ^ 32 := by
      rw [hc]
      exact Nat.pow_lt_pow_right (by decide) hj
    constructor
    · rw [isMarked_eq_testBit c _ j hc, hload c m hlt, hc, Nat.testBit_or,
        Nat.testBit_two_pow_self, Bool.or_true]
    · intro k hk
      rw [hload c m hlt, hc, Nat.testBit_or, Nat.testBit_two_pow_of_ne (Ne.symm hk),
        Bool.or_false]

/-- On a zero word, `setMarkedNonAtomic` at bit 3 stores 8; `isMarked` then returns true and
the other bits stay clear. -/
theorem setMarkedNonAtomic_sets_witness :
    LoadUint32 ((markBitsAt 0 3).setMarkedNonAtomic zeroMem) (markBitsAt 0 3).uint32p =
      LoadUint32 zeroMem (markBitsAt 0 3).uint32p ||| (markBitsAt 0 3).mask ∧
    (markBitsAt 0 3).isMarked ((markBitsAt 0 3).setMarkedNonAtomic zeroMem) = true :=
  ⟨((setMarkedNonAtomic_sets.1) (markBitsAt 0 3) zeroMem (by decide)).1,
   ((setMarkedNonAtomic_sets.2) (markBitsAt 0 3) zeroMem 3 (by decide) (by decide)).1⟩

/-- Claim C18: for every cursor with a single-bit mask `1<<j` and every memory, `setMarked` and
`clearMarked`, run without interference, return and change at most bit `j` of the cursor's word:
every other bit of that word, every 32-bit word that does not overlap it (in particular every
other word of the bitmap the cursor was resolved in) and every byte outside it keep their
value. -/
theorem setMarked_clearMarked_frame (c : markBits) (m : Mem) (j fuel : Nat) (hj : j < 32)
    (hc : c.mask = 2 ^ j) :
    (∃ m1, c.setMarked (fuel + 1) m = some m1 ∧
      (∀ k, k ≠ j →
        (LoadUint32 m1 c.uint32p).testBit k = (LoadUint32 m c.uint32p).testBit k) ∧
      (∀ q, q + 4 ≤ c.uint32p ∨ c.uint32p + 4 ≤ q → LoadUint32 m1 q = LoadUint32 m q) ∧
      (∀ b w i, c.uint32p = uint32p b w → w < 2 ^ 62 → i < 2 ^ 62 → i ≠ w →
        LoadUint32 m1 (uint32p b i) = LoadUint32 m (uint32p b i)) ∧
      (∀ a, a < c.uint32p ∨ c.uint32p + 4 ≤ a → byteAt m1 a = byteAt m a)) ∧
    (∃ m2, c.clearMarked (fuel + 1) m = some m2 ∧
      (∀ k, k ≠ j →
        (LoadUint32 m2 c.uint32p).testBit k = (LoadUint32 m c.uint32p).testBit k) ∧
      (∀ q, q + 4 ≤ c.uint32p ∨ c.uint32p + 4 ≤ q → LoadUint32 m2 q = LoadUint32 m q) ∧
      (∀ b w i, c.uint32p = uint32p b w → w < 2 ^ 62 → i < 2 ^ 62 → i ≠ w →
        LoadUint32 m2 (uint32p b i) = LoadUint32 m (uint32p b i)) ∧
      (∀ a, a < c.uint32p ∨ c.uint32p + 4 ≤ a → byteAt m2 a = byteAt m a)) := by
  have hw := LoadUint32_lt m c.uint32p
  have hm : (2:Nat) ^ j < 2 ^ 32 := Nat.pow_lt_pow_right (by decide) hj
  constructor
  · refine ⟨_, setMarked_eq c fuel m, ?_, ?_, ?_, ?_⟩
    · intro k hk
      rw [LoadUint32_StoreUint32_same, hc, Nat.mod_eq_of_lt (Nat.xor_lt_two_pow hw hm),
        Nat.testBit_xor, Nat.testBit_two_pow_of_ne (Ne.symm hk), Bool.xor_false]
    · intro q hq
      exact LoadUint32_StoreUint32_disjoint _ _ _ _ (by omega)
    · intro b w i hcw hw62 hi62 hiw
      rw [hcw]
      exact LoadUint32_StoreUint32_disjoint _ _ _ _
        (uint32p_disjoint b w i hw62 hi62 (Ne.symm hiw))
    · intro a ha
      exact byteAt_StoreUint32_outside _ _ _ _ ha
  · refine ⟨_, clearMarked_eq c fuel m, ?_, ?_, ?_, ?_⟩
    · intro k hk
      rw [LoadUint32_StoreUint32_same, hc, Nat.testBit_mod_two_pow, Nat.testBit_and,
        testBit_not32, Nat.testBit_two_pow_of_ne (Ne.symm hk)]
      by_cases hk32 : k < 32
      · simp [hk32]
      · have hge : 32 ≤ k := by omega
        simp [hk32, testBit_eq_false_of_lt32 hw hge]
    · intro q hq
      exact LoadUint32_StoreUint32_disjoint _ _ _ _ (by omega)
    · intro b w i hcw hw62 hi62 hiw
      rw [hcw]
      exact LoadUint32_StoreUint32_disjoint _ _ _ _
        (uint32p_disjoint b w i hw62 hi62 (Ne.symm hiw))
    · intro a ha
      exact byteAt_StoreUint32_outside _ _ _ _ ha

/-- On a word holding 5, marking and clearing at bit 1 change bit 1 only. -/
theorem setMarked_clearMarked_frame_witness :
    (∃ m1, (markBitsAt 0 1).setMarked 1 (wordMem 0 5) = some m1 ∧
      (∀ k, k ≠ 1 → (LoadUint32 m1 (markBitsAt 0 1).uint32p).testBit k =
        (LoadUint32 (wordMem 0 5) (markBitsAt 0 1).uint32p).testBit k) ∧
      (∀ q, q + 4 ≤ (markBitsAt 0 1).uint32p ∨ (markBitsAt 0 1).uint32p + 4 ≤ q →
        LoadUint32 m1 q = LoadUint32 (wordMem 0 5) q) ∧
      (∀ b w i, (markBitsAt 0 1).uint32p = uint32p b w → w < 2 ^ 62 → i < 2 ^ 62 → i ≠ w →
        LoadUint32 m1 (uint32p b i) = LoadUint32 (wordMem 0 5) (uint32p b i)) ∧
      (∀ a, a < (markBitsAt 0 1).uint32p ∨ (markBitsAt 0 1).uint32p + 4 ≤ a →
        byteAt m1 a = byteAt (wordMem 0 5) a)) ∧
    (∃ m2, (markBitsAt 0 1).clearMarked 1 (wordMem 0 5) = some m2 ∧
      (∀ k, k ≠ 1 → (LoadUint32 m2 (markBitsAt 0 1).uint32p).testBit k =
        (LoadUint32 (wordMem 0 5) (markBitsAt 0 1).uint32p).testBit k) ∧
      (∀ q, q + 4 ≤ (markBitsAt 0 1).uint32p ∨ (markBitsAt 0 1).uint32p + 4 ≤ q →
        LoadUint32 m2 q = LoadUint32 (wordMem 0 5) q) ∧
      (∀ b w i, (markBitsAt 0 1).uint32p = uint32p b w → w < 2 ^ 62 → i < 2 ^ 62 → i ≠ w →
        LoadUint32 m2 (uint32p b i) = LoadUint32 (wordMem 0 5) (uint32p b i)) ∧
      (∀ a, a < (markBitsAt 0 1).uint32p ∨ (markBitsAt 0 1).uint32p + 4 ≤ a →
        byteAt m2 a = byteAt (wordMem 0 5) a)) :=
  setMarked_clearMarked_frame (markBitsAt 0 1) (wordMem 0 5) 1 0 (by decide) (by decide)

/-! ## Traversal in the byte memory -/

theorem testBit_byte_add (x y k : Nat) (hx : x < 256) :
    (x + 256 * y).testBit k = if k < 8 then x.testBit k else y.testBit (k - 8) := by
  have h := Nat.testBit_mul_pow_two_add y (show x < 2 ^ 8 from hx) k
  rw [show (2:Nat) ^ 8 * y + x = x + 256 * y by omega] at h
  exact h

theorem testBit_LoadUint32 (m : Mem) (p k : Nat) (hk : k < 32) :
    (LoadUint32 m p).testBit k = (byteAt m (p + k / 8)).testBit (k % 8) := by
  have h0 := byteAt_lt m p
  have h1 := byteAt_lt m (p + 1)
  have h2 := byteAt_lt m (p + 2)
  have e : LoadUint32 m p = byteAt m p + 256 * (byteAt m (p + 1) + 256 *
      (byteAt m (p + 2) + 256 * byteAt m (p + 3))) := by
    unfold LoadUint32
    omega
  rw [e, testBit_byte_add _ _ _ h0]
  by_cases c0 : k < 8
  · rw [if_pos c0, show k / 8 = 0 by omega, show k % 8 = k by omega]
    rfl
  · rw [if_neg c0, testBit_byte_add _ _ _ h1]
    by_cases c1 : k - 8 < 8
    · rw [if_pos c1, show k / 8 = 1 by omega, show k % 8 = k - 8 by omega]
    · rw [if_neg c1, testBit_byte_add _ _ _ h2]
      by_cases c2 : k - 8 - 8 < 8
      · rw [if_pos c2, show k / 8 = 2 by omega, show k % 8 = k - 8 - 8 by omega]
      · rw [if_neg c2, show k / 8 = 3 by omega, show k % 8 = k - 8 - 8 - 8 by omega]

theorem two_pow_mod8_cases (r : Nat) (hr : r < 8) :
    ((2:Nat) ^ r = 1 <<< 7 ↔ r = 7) ∧ ((2:Nat) ^ r <<< 1) % uint32Size = 2 ^ (r + 1) := by
  interval_cases r <;> decide

theorem advance_iterate_first (b k : Nat) (hb : b < uintptrSize) (hk : k < uintptrSize) :
    markBits.advance^[k] (markBits.first b) =
      { uint32p := (b + k / 8) % uintptrSize, mask := 2 ^ (k % 8), index := k } := by
  unfold uintptrSize at hb hk
  induction k with
  | zero =>
    show markBits.first b = _
    unfold markBits.first uintptrSize
    rw [show (b + 0 / 8) % 2 ^ 64 = b by omega]
    rfl
  | succ k ih =>
    rw [Function.iterate_succ_apply', ih (by omega)]
    have hr : k % 8 < 8 := Nat.mod_lt _ (by decide)
    obtain ⟨h7, hsh⟩ := two_pow_mod8_cases (k % 8) hr
    unfold markBits.advance
    dsimp only
    by_cases c : k % 8 = 7
    · rw [if_pos (h7.2 c)]
      have e1 : ((b + k / 8) % uintptrSize + 1) % uintptrSize = (b + (k + 1) / 8) % uintptrSize := by
        unfold uintptrSize; omega
      have e2 : (k + 1) % 8 = 0 := by omega
      have e3 : (k + 1) % uintptrSize = k + 1 := by unfold uintptrSize; omega
      rw [e1, e2, e3]
      rfl
    · rw [if_neg (fun h => c (h7.1 h))]
      have e1 : (b + k / 8) % uintptrSize = (b + (k + 1) / 8) % uintptrSize := by
        unfold uintptrSize; omega
      have e2 : (k + 1) % 8 = k % 8 + 1 := by omega
      have e3 : (k + 1) % uintptrSize = k + 1 := by unfold uintptrSize; omega
      rw [hsh, e1, e2, e3]

/-- Claim C19: in the little-endian byte memory, for every bit index `k` (a `uintptr`) whose
4-byte load at byte `k/8` stays inside a storage of `size` bytes at `b` that lies in the address
space, `k` calls of `advance` from the bit-0 cursor give the cursor with byte offset `k/8`, mask
`1 << (k%8)` and index `k`; `isMarked` on it returns bit `k%8` of byte `k/8` of the storage, which
is bit `k` of the array, the answer of `isMarked` on the cursor `bitp(k)`. -/
theorem advance_isMarked_eq_bitp (b size k : Nat) (m : Mem) (hk64 : k < uintptrSize)
    (hsize : b + size ≤ uintptrSize) (hk : k / 8 + 4 ≤ size) :
    markBits.advance^[k] (markBits.first b) =
      { uint32p := b + k / 8, mask := 1 <<< (k % 8), index := k } ∧
    (markBits.advance^[k] (markBits.first b)).isMarked m =
      (byteAt m (b + k / 8)).testBit (k % 8) ∧
    (markBits.advance^[k] (markBits.first b)).isMarked m = (markBitsAt b k).isMarked m := by
  unfold uintptrSize at hsize
  have hb : b < uintptrSize := by unfold uintptrSize; omega
  have hk2 := hk64
  unfold uintptrSize at hk64
  have hr : k % 8 < 8 := Nat.mod_lt _ (by decide)
  have hit : markBits.advance^[k] (markBits.first b) =
      { uint32p := b + k / 8, mask := 1 <<< (k % 8), index := k } := by
    rw [advance_iterate_first b k hb hk2, Nat.one_shiftLeft]
    have : (b + k / 8) % uintptrSize = b + k / 8 := by unfold uintptrSize; omega
    rw [this]
  have hbyte : (markBits.advance^[k] (markBits.first b)).isMarked m =
      (byteAt m (b + k / 8)).testBit (k % 8) := by
    rw [hit, isMarked_eq_testBit _ m (k % 8) (Nat.one_shiftLeft _)]
    show (LoadUint32 m (b + k / 8)).testBit (k % 8) = _
    rw [testBit_LoadUint32 m _ _ (by omega), show k % 8 / 8 = 0 by omega,
      show k % 8 % 8 = k % 8 by omega]
    rfl
  refine ⟨hit, hbyte, ?_⟩
  rw [hbyte, markBitsAt_isMarked, testBit_LoadUint32 m _ _ (Nat.mod_lt _ (by decide))]
  have ea : uint32p b (k / 32) + k % 32 / 8 = b + k / 8 := by
    unfold uint32p addb uintptrSize
    omega
  rw [ea, show k % 32 % 8 = k % 8 by omega]

/-- In the 8-byte bitmap at address 0 whose first word is 512, nine calls of `advance` lead to
byte 1, mask 2, and both cursors of bit 9 read it as set. -/
theorem advance_isMarked_eq_bitp_witness :
    markBits.advance^[9] (markBits.first 0) =
      { uint32p := 0 + 9 / 8, mask := 1 <<< (9 % 8), index := 9 } ∧
    (markBits.advance^[9] (markBits.first 0)).isMarked (wordMem 0 512) =
      (byteAt (wordMem 0 512) (0 + 9 / 8)).testBit (9 % 8) ∧
    (markBits.advance^[9] (markBits.first 0)).isMarked (wordMem 0 512) =
      (markBitsAt 0 9).isMarked (wordMem 0 512) :=
  advance_isMarked_eq_bitp 0 8 9 (wordMem 0 512) (by decide) (by decide) (by decide)

/-! ## Interleaved `setMarked` -/

/-- A worker that takes its two actions without interference does what the sequential
`setMarked` does. -/
theorem setMarkedStep_solo (c : markBits) (m : Mem) (fuel : Nat) :
    setMarkedStep c m Pc.load = (m, Pc.cas (LoadUint32 m c.uint32p)) ∧
    setMarkedStep c m (Pc.cas (LoadUint32 m c.uint32p)) =
      (StoreUint32 m c.uint32p (LoadUint32 m c.uint32p ^^^ c.mask), Pc.returned) ∧
    c.setMarked (fuel + 1) m =
      some (setMarkedStep c m (Pc.cas (LoadUint32 m c.uint32p))).1 := by
  refine ⟨rfl, ?_, ?_⟩
  · simp [setMarkedStep, CompareAndSwapUint32]
  · rw [setMarked_eq]
    simp [setMarkedStep, CompareAndSwapUint32]

theorem MarkInv_init (N p : Nat) (bit : Nat → Nat) (m : Mem) (h0 : LoadUint32 m p = 0) :
    MarkInv N p bit (Shared.init m) := by
  intro k
  show (LoadUint32 m p).testBit k = true ↔ _
  rw [h0]
  constructor
  · intro h
    simp at h
  · rintro ⟨i, _, _, hi⟩
    simp [Shared.init] at hi

theorem MarkInv_step (N p : Nat) (bit : Nat → Nat) (cursor : Nat → markBits)
    (hp : ∀ i, i < N → (cursor i).uint32p = p)
    (hm : ∀ i, i < N → (cursor i).mask = 2 ^ bit i)
    (hlt : ∀ i, i < N → bit i < 32)
    (hinj : ∀ i j, i < N → j < N → bit i = bit j → i = j)
    (s : Shared) (i : Nat) (hs : MarkInv N p bit s) :
    MarkInv N p bit (Shared.step cursor N s i) := by
  unfold Shared.step
  by_cases hi : i < N
  · rw [if_pos hi]
    cases hpc : s.pc i with
    | load =>
      intro k
      show (LoadUint32 s.mem p).testBit k = true ↔ _
      rw [hs k]
      constructor
      · rintro ⟨j, hj, hb, hr⟩
        refine ⟨j, hj, hb, ?_⟩
        have hne : j ≠ i := by
          intro e; rw [e, hpc] at hr; cases hr
        show Function.update s.pc i _ j = _
        rw [Function.update_noteq hne]
        exact hr
      · rintro ⟨j, hj, hb, hr⟩
        refine ⟨j, hj, hb, ?_⟩
        have hne : j ≠ i := by
          intro e
          rw [e] at hr
          have : Function.update s.pc i (setMarkedStep (cursor i) s.mem Pc.load).2 i =
            Pc.returned := hr
          rw [Function.update_same] at this
          cases this
        have : Function.update s.pc i (setMarkedStep (cursor i) s.mem Pc.load).2 j =
            Pc.returned := hr
        rw [Function.update_noteq hne] at this
        exact this
    | returned =>
      intro k
      show (LoadUint32 s.mem p).testBit k = true ↔ _
      rw [hs k]
      have hupd : Function.update s.pc i (setMarkedStep (cursor i) s.mem Pc.returned).2 = s.pc := by
        show Function.update s.pc i Pc.returned = s.pc
        rw [← hpc]
        exact Function.update_eq_self i s.pc
      show _ ↔ ∃ j, j < N ∧ bit j = k ∧ Function.update s.pc i
        (setMarkedStep (cursor i) s.mem Pc.returned).2 j = Pc.returned
      rw [hupd]
    | cas val =>
      by_cases hv : LoadUint32 s.mem p = val
      · -- the compare-and-swap succeeds
        have hstep : setMarkedStep (cursor i) s.mem (Pc.cas val) =
            (StoreUint32 s.mem p (val ^^^ 2 ^ bit i), Pc.returned) := by
          simp [setMarkedStep, CompareAndSwapUint32, hp i hi, hm i hi, hv]
        rw [hstep]
        intro k
        show (LoadUint32 (StoreUint32 s.mem p (val ^^^ 2 ^ bit i)) p).testBit k = true ↔
          ∃ j, j < N ∧ bit j = k ∧ Function.update s.pc i Pc.returned j = Pc.returned
        have hvlt : val < 2 ^ 32 := hv ▸ LoadUint32_lt s.mem p
        have hblt : (2:Nat) ^ bit i < 2 ^ 32 := Nat.pow_lt_pow_right (by decide) (hlt i hi)
        rw [LoadUint32_StoreUint32_same, Nat.mod_eq_of_lt (Nat.xor_lt_two_pow hvlt hblt),
          Nat.testBit_xor, ← hv]
        by_cases hk : bit i = k
        · subst hk
          have hold : (LoadUint32 s.mem p).testBit (bit i) = false := by
            cases h : (LoadUint32 s.mem p).testBit (bit i) with
            | false => rfl
            | true =>
              obtain ⟨j, hj, hb, hr⟩ := (hs (bit i)).1 h
              have := hinj j i hj hi hb
              rw [this, hpc] at hr
              cases hr
          rw [hold, Nat.testBit_two_pow_self]
          constructor
          · intro _
            exact ⟨i, hi, rfl, Function.update_same _ _ _⟩
          · intro _
            rfl
        · rw [Nat.testBit_two_pow_of_ne hk, Bool.xor_false, hs k]
          constructor
          · rintro ⟨j, hj, hb, hr⟩
            have hne : j ≠ i := by
              intro e; rw [e] at hb; exact hk hb
            exact ⟨j, hj, hb, by rw [Function.update_noteq hne]; exact hr⟩
          · rintro ⟨j, hj, hb, hr⟩
            have hne : j ≠ i := by
              intro e; rw [e] at hb; exact hk hb
            rw [Function.update_noteq hne] at hr
            exact ⟨j, hj, hb, hr⟩
      · -- the compare-and-swap fails
        have hstep : setMarkedStep (cursor i) s.mem (Pc.cas val) = (s.mem, Pc.load) := by
          simp [setMarkedStep, CompareAndSwapUint32, hp i hi, hv]
        rw [hstep]
        intro k
        show (LoadUint32 s.mem p).testBit k = true ↔
          ∃ j, j < N ∧ bit j = k ∧ Function.update s.pc i Pc.load j = Pc.returned
        rw [hs k]
        constructor
        · rintro ⟨j, hj, hb, hr⟩
          have hne : j ≠ i := by
            intro e; rw [e, hpc] at hr; cases hr
          exact ⟨j, hj, hb, by rw [Function.update_noteq hne]; exact hr⟩
        · rintro ⟨j, hj, hb, hr⟩
          have hne : j ≠ i := by
            intro e
            rw [e, Function.update_same] at hr
            cases hr
          rw [Function.update_noteq hne] at hr
          exact ⟨j, hj, hb, hr⟩
  · rw [if_neg hi]
    exact hs

theorem MarkInv_run (N p : Nat) (bit : Nat → Nat) (cursor : Nat → markBits)
    (hp : ∀ i, i < N → (cursor i).uint32p = p)
    (hm : ∀ i, i < N → (cursor i).mask = 2 ^ bit i)
    (hlt : ∀ i, i < N → bit i < 32)
    (hinj : ∀ i j, i < N → j < N → bit i = bit j → i = j)
    (sched : List Nat) (s : Shared) (hs : MarkInv N p bit s) :
    MarkInv N p bit (Shared.run cursor N sched s) := by
  induction sched generalizing s with
  | nil => exact hs
  | cons i rest ih =>
    exact ih _ (MarkInv_step N p bit cursor hp hm hlt hinj s i hs)



theorem Shared.run_append (cursor : Nat → markBits) (N : Nat) (l₁ l₂ : List Nat) (s : Shared) :
    Shared.run cursor N (l₁ ++ l₂) s = Shared.run cursor N l₂ (Shared.run cursor N l₁ s) := by
  unfold Shared.run
  rw [List.foldl_append]

theorem step_pc_other (cursor : Nat → markBits) (N : Nat) (s : Shared) (i j : Nat) (h : j ≠ i) :
    (Shared.step cursor N s i).pc j = s.pc j := by
  unfold Shared.step
  split_ifs
  · exact Function.update_noteq h _ _
  · rfl

theorem step_pc_self (cursor : Nat → markBits) (N : Nat) (s : Shared) (i : Nat) (h : i < N) :
    (Shared.step cursor N s i).pc i = (setMarkedStep (cursor i) s.mem (s.pc i)).2 := by
  unfold Shared.step
  rw [if_pos h]
  exact Function.update_same _ _ _

theorem step_mem (cursor : Nat → markBits) (N : Nat) (s : Shared) (i : Nat) (h : i < N) :
    (Shared.step cursor N s i).mem = (setMarkedStep (cursor i) s.mem (s.pc i)).1 := by
  unfold Shared.step
  rw [if_pos h]

theorem step_returned_stable (cursor : Nat → markBits) (N : Nat) (s : Shared) (i j : Nat)
    (h : s.pc j = Pc.returned) : (Shared.step cursor N s i).pc j = Pc.returned := by
  by_cases hij : j = i
  · subst hij
    by_cases hN : j < N
    · rw [step_pc_self cursor N s j hN, h]
      rfl
    · unfold Shared.step
      rw [if_neg hN]
      exact h
  · rw [step_pc_other cursor N s i j hij]
    exact h

theorem run_returned_stable (cursor : Nat → markBits) (N : Nat) (sched : List Nat) (s : Shared)
    (j : Nat) (h : s.pc j = Pc.returned) : (Shared.run cursor N sched s).pc j = Pc.returned := by
  induction sched generalizing s with
  | nil => exact h
  | cons i rest ih => exact ih _ (step_returned_stable cursor N s i j h)

/-- A worker that takes three actions in a row has returned. -/
theorem three_steps_return (cursor : Nat → markBits) (N : Nat) (s : Shared) (i : Nat)
    (h : i < N) : (Shared.run cursor N [i, i, i] s).pc i = Pc.returned := by
  show (Shared.step cursor N (Shared.step cursor N (Shared.step cursor N s i) i) i).pc i = _
  have two : ∀ t : Shared, t.pc i = Pc.load →
      (Shared.step cursor N (Shared.step cursor N t i) i).pc i = Pc.returned := by
    intro t ht
    rw [step_pc_self cursor N _ i h, step_pc_self cursor N t i h, step_mem cursor N t i h, ht]
    simp [setMarkedStep, CompareAndSwapUint32]
  cases hpc : s.pc i with
  | load =>
    exact step_returned_stable cursor N _ i i (two s hpc)
  | returned =>
    exact step_returned_stable cursor N _ i i
      (step_returned_stable cursor N _ i i (step_returned_stable cursor N s i i hpc))
  | cas val =>
    by_cases hv : LoadUint32 s.mem (cursor i).uint32p = val
    · have h1 : (Shared.step cursor N s i).pc i = Pc.returned := by
        rw [step_pc_self cursor N s i h, hpc]
        simp [setMarkedStep, CompareAndSwapUint32, hv]
      exact step_returned_stable cursor N _ i i (step_returned_stable cursor N _ i i h1)
    · have h1 : (Shared.step cursor N s i).pc i = Pc.load := by
        rw [step_pc_self cursor N s i h, hpc]
        simp [setMarkedStep, CompareAndSwapUint32, hv]
      exact two _ h1

theorem finishAll_returns (cursor : Nat → markBits) (N : Nat) :
    ∀ K, K ≤ N → ∀ (s : Shared) (i : Nat), i < K →
      (Shared.run cursor N (finishAll K) s).pc i = Pc.returned := by
  intro K
  induction K with
  | zero => intro _ s i hi; omega
  | succ K ih =>
    intro hK s i hi
    show (Shared.run cursor N (finishAll K ++ [K, K, K]) s).pc i = _
    rw [Shared.run_append]
    by_cases hiK : i = K
    · subst hiK
      exact three_steps_return cursor N _ i (by omega)
    · exact run_returned_stable cursor N _ _ i (ih (by omega) s i (by omega))

/-- Claim C14: `N` workers call `setMarked` once each, on the cursors of `N` distinct bits of one
initially clear word, every `atomic.LoadUint32` and `atomic.CompareAndSwapUint32` being one step
of an arbitrary interleaving.  Whenever all workers have returned, `isMarked` is true for each of
the `N` bits; and every interleaving can be continued so that all workers return. -/
theorem setMarked_concurrent (b q N : Nat) (n : Nat → Nat) (m : Mem)
    (hword : ∀ i, i < N → n i / 32 = q)
    (hinj : ∀ i j, i < N → j < N → n i = n j → i = j)
    (hclear : LoadUint32 m (uint32p b q) = 0) :
    (∀ sched : List Nat,
      (∀ i, i < N →
        (Shared.run (fun i => markBitsAt b (n i)) N sched (Shared.init m)).pc i = Pc.returned) →
      ∀ i, i < N →
        (markBitsAt b (n i)).isMarked
          (Shared.run (fun i => markBitsAt b (n i)) N sched (Shared.init m)).mem = true) ∧
    (∀ (sched : List Nat) (i : Nat), i < N →
      (Shared.run (fun i => markBitsAt b (n i)) N (sched ++ finishAll N) (Shared.init m)).pc i =
        Pc.returned) := by
  constructor
  · intro sched hret i hi
    have hinv := MarkInv_run N (uint32p b q) (fun i => n i % 32) (fun i => markBitsAt b (n i))
      (fun i hi => by show uint32p b (n i / 32) = _; rw [hword i hi])
      (fun i _ => bitp_mask b (n i))
      (fun i _ => Nat.mod_lt _ (by decide))
      (fun i j hi hj h => hinj i j hi hj (by
        have h1 := hword i hi
        have h2 := hword j hj
        have h3 : n i % 32 = n j % 32 := h
        omega))
      sched (Shared.init m) (MarkInv_init N _ _ m hclear)
    rw [markBitsAt_isMarked, hword i hi]
    exact (hinv (n i % 32)).2 ⟨i, hi, rfl, hret i hi⟩
  · intro sched i hi
    rw [Shared.run_append]
    exact finishAll_returns _ N N (le_refl N) _ i hi

/-- Two workers mark bits 0 and 1 of a zero word; worker 1 loads before worker 0 swaps, fails
its first compare-and-swap and retries.  Both return and both bits are set. -/
theorem setMarked_concurrent_witness :
    (∀ i, i < 2 →
      (Shared.run (fun i => markBitsAt 0 i) 2 [0, 1, 0, 1, 1, 1] (Shared.init zeroMem)).pc i =
        Pc.returned) ∧
    (∀ i, i < 2 →
      (markBitsAt 0 i).isMarked
        (Shared.run (fun i => markBitsAt 0 i) 2 [0, 1, 0, 1, 1, 1] (Shared.init zeroMem)).mem =
          true) :=
  ⟨by decide,
   (setMarked_concurrent 0 0 2 (fun i => i) zeroMem (by decide) (fun _ _ _ _ h => h)
     (by decide)).1
     [0, 1, 0, 1, 1, 1] (by decide)⟩

theorem invert_eq_invertLoop (b len : Nat) (m : Mem) :
    invert b len m = invertLoop b (invertNum len) m := rfl

theorem invertNum_eq {len : Nat} (h : len < uintptrSize) : invertNum len = (len + 31) / 32 := by
  unfold uintptrSize at h
  unfold invertNum uintptrSize
  dsimp only
  split_ifs <;> omega

theorem blocksNeeded_eq {nelems : Nat} (h : nelems ≤ 2 ^ 64 - 64) :
    blocksNeeded nelems = (nelems + 63) / 64 := by
  unfold blocksNeeded uintptrSize
  omega

theorem show64Num_le {len : Nat} (h : len < uintptrSize) :
    show64Num len ≤ (len + 63) / 64 := by
  unfold uintptrSize at h
  unfold show64Num uintptrSize
  dsimp only
  split_ifs <;> omega

theorem fmtBinary_length (width v : Nat) : (fmtBinary width v).length = width := by
  unfold fmtBinary
  simp [String.length]

theorem foldl_append_length (n k : Nat) (f : Nat → String) (hf : ∀ i, (f i).length = k) :
    ((List.range n).foldl (fun res i => res ++ f i) "").length = k * n := by
  induction n with
  | zero => rfl
  | succ n ih =>
    rw [List.range_succ, List.foldl_append]
    simp only [List.foldl_cons, List.foldl_nil]
    rw [String.length_append, ih, hf]
    ring

theorem LoadUint32_congr (m m2 : Mem) (p : Nat)
    (h : ∀ a, p ≤ a → a < p + 4 → byteAt m a = byteAt m2 a) :
    LoadUint32 m p = LoadUint32 m2 p := by
  unfold LoadUint32
  rw [h p (by omega) (by omega), h (p + 1) (by omega) (by omega),
    h (p + 2) (by omega) (by omega), h (p + 3) (by omega) (by omega)]

theorem aCache_congr (m m2 : Mem) (p : Nat)
    (h : ∀ a, p ≤ a → a < p + 8 → byteAt m a = byteAt m2 a) :
    aCache m p = aCache m2 p := by
  unfold aCache
  rw [h p (by omega) (by omega), h (p + 1) (by omega) (by omega),
    h (p + 2) (by omega) (by omega), h (p + 3) (by omega) (by omega),
    h (p + 4) (by omega) (by omega), h (p + 5) (by omega) (by omega),
    h (p + 6) (by omega) (by omega), h (p + 7) (by omega) (by omega)]

theorem foldl_range_congr {α : Type} (n : Nat) (f g : α → Nat → α) (a : α)
    (h : ∀ x i, i < n → f x i = g x i) :
    (List.range n).foldl f a = (List.range n).foldl g a :=
  List.foldl_ext f g a (fun x i hi => h x i (List.mem_range.1 hi))

/-! ## Bulk operations against the allocation -/

/-- Claim C17 (fails as stated): for `len = 2^64 - 1`, `invert(len)` runs `ceil(len/32) = 2^59`
rounds, while the word count of `newMarkBits(len, _)` wraps to 0 (0 bytes requested): already
word 0, which `invert` complements, lies outside the allocation. -/
theorem invert_outside_allocation_wraps :
    2 ^ 64 - 1 < uintptrSize ∧
    (toInt (invertNum (2 ^ 64 - 1))).toNat = 2 ^ 59 ∧
    ⌈((2 ^ 64 - 1 : Nat) : ℚ) / 32⌉₊ = 2 ^ 59 ∧
    uint32Needed (2 ^ 64 - 1) = 0 ∧
    ¬ ((toInt (invertNum (2 ^ 64 - 1))).toNat ≤ uint32Needed (2 ^ 64 - 1)) ∧
    LoadUint32 (invert 0 (2 ^ 64 - 1) zeroMem) (uint32p 0 0) = allOnes32 := by
  have hn : (toInt (invertNum (2 ^ 64 - 1))).toNat = 2 ^ 59 := by decide
  have hu : uint32Needed (2 ^ 64 - 1) = 0 := by decide
  refine ⟨by decide, hn, ?_, hu, ?_, ?_⟩
  · rw [ceil_div_32]
    norm_num
  · rw [hn, hu]
    decide
  · rw [invert_eq_foldl 0 _ zeroMem (by decide),
      LoadUint32_foldl_invertWord 0 _ 0 zeroMem (by norm_num) (by norm_num),
      if_pos (by norm_num)]
    decide

theorem allocSize_eq_of_le {nelems : Nat} (h : nelems ≤ 2 ^ 64 - 64) :
    allocSize nelems = 4 * ((nelems + 63) / 64 * 2) := by
  rw [allocSize_eq, uint32Needed_eq h]

/-- Claim C17 (amended): for every `len ≤ 2^64 - 64`, `invert(len)` writes `ceil(len/32)` words,
at most the `2 * ceil(len/64)` words that `newMarkBits(len, _)` allocates; on a bitmap at `b` whose
allocation lies in the address space every word written is inside the allocation and every byte
outside the allocation keeps its value. -/
theorem invert_within_allocation (b len : Nat) (m : Mem) (h : len ≤ 2 ^ 64 - 64)
    (hb : b + allocSize len ≤ uintptrSize) :
    (toInt (invertNum len)).toNat = ⌈(len : ℚ) / 32⌉₊ ∧
    uint32Needed len = 2 * ⌈(len : ℚ) / 64⌉₊ ∧
    ⌈(len : ℚ) / 32⌉₊ ≤ uint32Needed len ∧
    (∀ i, i < ⌈(len : ℚ) / 32⌉₊ →
      b ≤ uint32p b i ∧ uint32p b i + 4 ≤ b + allocSize len) ∧
    (∀ a, a < b ∨ b + allocSize len ≤ a → byteAt (invert b len m) a = byteAt m a) := by
  have hlen : len < uintptrSize := by unfold uintptrSize; omega
  have hA := allocSize_eq_of_le h
  have hW := uint32Needed_eq h
  have hnum := invertNum_eq hlen
  unfold uintptrSize at hb
  rw [ceil_div_32, ceil_div_64, hnum, toInt_toNat (by omega)]
  have haddr : ∀ i, i < (len + 31) / 32 →
      b ≤ uint32p b i ∧ uint32p b i + 4 ≤ b + allocSize len := by
    intro i hi
    unfold uint32p addb uintptrSize
    omega
  refine ⟨rfl, by omega, by omega, haddr, ?_⟩
  intro a ha
  rw [invert_eq_foldl b len m hlen]
  apply byteAt_foldl_invertWord_frame
  intro j hj
  have := haddr j hj
  omega


/-- Inverting the 65 bits of a bitmap at address 0 writes 3 of its 4 allocated words. -/
theorem invert_within_allocation_witness :
    (toInt (invertNum 65)).toNat = ⌈((65 : Nat) : ℚ) / 32⌉₊ ∧
    uint32Needed 65 = 2 * ⌈((65 : Nat) : ℚ) / 64⌉₊ ∧
    ⌈((65 : Nat) : ℚ) / 32⌉₊ ≤ uint32Needed 65 ∧
    (∀ a, a < 0 ∨ 0 + allocSize 65 ≤ a →
      byteAt (invert 0 65 (wordMem 0 5)) a = byteAt (wordMem 0 5) a) :=
  ⟨(invert_within_allocation 0 65 (wordMem 0 5) (by decide) (by decide)).1,
   (invert_within_allocation 0 65 (wordMem 0 5) (by decide) (by decide)).2.1,
   (invert_within_allocation 0 65 (wordMem 0 5) (by decide) (by decide)).2.2.1,
   (invert_within_allocation 0 65 (wordMem 0 5) (by decide) (by decide)).2.2.2.2⟩

/-- Claim C16 (fails as stated): for `len = 2^64 - 1`, `show64(len)` reads
`len/64 + 1 = 2^58 = ceil(len/64)` blocks, while the block count of `newMarkBits` for `len` bits
wraps to 0 and 0 bytes are allocated. -/
theorem show64_outside_allocation_wraps :
    2 ^ 64 - 1 < uintptrSize ∧
    (toInt (show64Num (2 ^ 64 - 1))).toNat = 2 ^ 58 ∧
    ⌈((2 ^ 64 - 1 : Nat) : ℚ) / 64⌉₊ = 2 ^ 58 ∧
    blocksNeeded (2 ^ 64 - 1) = 0 ∧
    allocSize (2 ^ 64 - 1) = 0 ∧
    ¬ ((toInt (show64Num (2 ^ 64 - 1))).toNat ≤ blocksNeeded (2 ^ 64 - 1)) := by
  have hn : (toInt (show64Num (2 ^ 64 - 1))).toNat = 2 ^ 58 := by decide
  have hu : blocksNeeded (2 ^ 64 - 1) = 0 := by decide
  refine ⟨by decide, hn, ?_, hu, by decide, ?_⟩
  · rw [ceil_div_64]
    norm_num
  · rw [hn, hu]
    decide

/-- Claim C16 (amended): for every `len ≤ 2^64 - 64`, the number of 64-bit blocks `show64(len)`
reads (`len/64 + 1`, minus one when `len % 64 = 0` or `len ≤ 64`) is at most `ceil(len/64)`, the
number of blocks `newMarkBits` allocates for `len` bits; every block read lies inside the
allocation, and the line printed depends on the allocated bytes only. -/
theorem show64_within_allocation (b len : Nat) (m : Mem) (h : len ≤ 2 ^ 64 - 64)
    (hb : b + allocSize len ≤ uintptrSize) :
    show64Num len = (if len % 64 = 0 ∨ len ≤ 64 then len / 64 + 1 - 1 else len / 64 + 1) ∧
    blocksNeeded len = ⌈(len : ℚ) / 64⌉₊ ∧
    allocSize len = 8 * blocksNeeded len ∧
    (toInt (show64Num len)).toNat ≤ blocksNeeded len ∧
    (∀ i, i < (toInt (show64Num len)).toNat →
      b ≤ blockAddr b i ∧ blockAddr b i + 8 ≤ b + allocSize len) ∧
    (∀ m2 : Mem, (∀ a, b ≤ a → a < b + allocSize len → byteAt m a = byteAt m2 a) →
      show64 b len m = show64 b len m2) := by
  have hlen : len < uintptrSize := by unfold uintptrSize; omega
  have hA := allocSize_eq_of_le h
  have hB := blocksNeeded_eq h
  have hle := show64Num_le hlen
  unfold uintptrSize at hb hlen
  have hcnt : (toInt (show64Num len)).toNat = show64Num len := toInt_toNat (by omega)
  have hnum : show64Num len =
      (if len % 64 = 0 ∨ len ≤ 64 then len / 64 + 1 - 1 else len / 64 + 1) := by
    unfold show64Num uintptrSize
    dsimp only
    split_ifs <;> omega
  have haddr : ∀ i, i < (toInt (show64Num len)).toNat →
      b ≤ blockAddr b i ∧ blockAddr b i + 8 ≤ b + allocSize len := by
    intro i hi
    rw [hcnt] at hi
    unfold blockAddr uintptrSize
    omega
  refine ⟨hnum, ?_, by omega, by omega, haddr, ?_⟩
  · rw [ceil_div_64, hB]
  · intro m2 hm
    unfold show64
    apply foldl_range_congr
    intro ss i hi
    have := haddr i hi
    rw [aCache_congr m m2 (blockAddr b i) (fun a h1 h2 => hm a (by omega) (by omega))]

/-- For 128 bits at address 0, `show64` reads the 2 allocated blocks. -/
theorem show64_within_allocation_witness :
    blocksNeeded 128 = ⌈((128 : Nat) : ℚ) / 64⌉₊ ∧
    (toInt (show64Num 128)).toNat ≤ blocksNeeded 128 ∧
    (∀ i, i < (toInt (show64Num 128)).toNat →
      0 ≤ blockAddr 0 i ∧ blockAddr 0 i + 8 ≤ 0 + allocSize 128) :=
  ⟨(show64_within_allocation 0 128 zeroMem (by decide) (by decide)).2.1,
   (show64_within_allocation 0 128 zeroMem (by decide) (by decide)).2.2.2.1,
   (show64_within_allocation 0 128 zeroMem (by decide) (by decide)).2.2.2.2.1⟩

/-- For every length `N` that is non-negative as an `int`, `String(b, N)` renders the `N`
words `0 .. N-1` of the bitmap at `b`, 32 digits each. -/
theorem gcBitsString_eq_foldl (b N : Nat) (m : Mem) (hN : N < 2 ^ 63) :
    gcBitsString b N m =
      (List.range N).foldl
        (fun res i => res ++ fmtBinary 32 (LoadUint32 m (uint32p b i))) "" ∧
    (gcBitsString b N m).length = 32 * N := by
  have hdef : gcBitsString b N m =
      (List.range N).foldl
        (fun res i => res ++ fmtBinary 32 (LoadUint32 m (uint32p b i))) "" := by
    unfold gcBitsString
    rw [toInt_toNat hN]
  refine ⟨hdef, ?_⟩
  rw [hdef]
  exact foldl_append_length N 32 _ (fun i => fmtBinary_length 32 _)

set_option maxRecDepth 100000 in
/-- Claim C15 (fails on the code): `String(b, nelems)` uses `nelems` as the length of a
`[]gcBits`, so it reads `nelems` 32-bit words and returns `32 * nelems` digits, not the
`ceil(nelems/32)` words that cover `nelems` bits.  For the bitmap at address 4096 sized by
`newMarkBits` for 3 bits (2 words, 8 bytes), `String(b, 3)` returns 96 digits and its result
differs between two memories that agree on the 8 allocated bytes and differ in the word behind
them: it reads past the allocation.  `invert(3)`, which converts the bit count first, touches
1 word. -/
theorem gcBitsString_reads_words :
    (∀ (b N : Nat) (m : Mem), N < 2 ^ 63 →
      gcBitsString b N m =
        (List.range N).foldl
          (fun res i => res ++ fmtBinary 32 (LoadUint32 m (uint32p b i))) "" ∧
      (gcBitsString b N m).length = 32 * N) ∧
    uint32Needed 3 = 2 ∧ allocSize 3 = 8 ∧
    ⌈((3 : Nat) : ℚ) / 32⌉₊ = 1 ∧
    (toInt (invertNum 3)).toNat = 1 ∧
    (gcBitsString 4096 3 zeroMem).length = 32 * 3 ∧
    (∀ k, k < 8 → byteAt zeroMem (4096 + k) = byteAt (wordMem 4104 1) (4096 + k)) ∧
    gcBitsString 4096 3 zeroMem ≠ gcBitsString 4096 3 (wordMem 4104 1) := by
  refine ⟨fun b N m hN => gcBitsString_eq_foldl b N m hN, by decide, by decide, ?_, by decide,
    by decide, by decide, by decide⟩
  rw [ceil_div_32]

end xmm
